import Mathlib

/-!
Binary Search v1.6 (`binary-search.c`): five search variants.

Shallow embedding of the five search functions of `binary-search.c`.

* An `int *array` is a `List Int`; reading an index outside the list is undefined
  behaviour in C and is `none` here, so every function returns an `Option`.
* `unsigned int` variables are natural numbers below `2^32`; every unsigned addition,
  subtraction and multiplication is reduced modulo `2^32` (`u32`, `usub`).
* `int` variables are integers.  In `standard_binary_search` they stay within
  `[-1, array_size)`, so no signed operation can overflow there.
* The global `int checks` is threaded through every function: it is an argument and the
  second component of the result.  It is an unbounded integer (signed overflow of the
  counter is not modelled).
* `while` loops are recursive functions with a fuel argument; running out of fuel is `none`.
* `float` is IEEE 754 binary32 and every `float` operation rounds to binary32, to nearest
  with ties to even (`FLT_EVAL_METHOD == 0`).  Signed overflow in `key - min` and
  `max - min`, and a `float` to `unsigned int` conversion out of range, are undefined
  behaviour in C and are `none` here.
-/

namespace BinarySearch

/-! ## Machine arithmetic -/

/-- Reduction of a natural number to the range of `unsigned int`. -/
def u32 (x : Nat) : Nat := x % 4294967296

/-- Subtraction of two `unsigned int` values, with wraparound. -/
def usub (a b : Nat) : Nat := (a + 4294967296 - b % 4294967296) % 4294967296

/-- Conversion of an `int` to `unsigned int`. -/
def toU32 (x : Int) : Nat := (x % 4294967296).toNat

/-- Conversion of an `unsigned int` to `int` (two's complement), as in `return i;`. -/
def toI32 (x : Nat) : Int := if x < 2147483648 then (x : Int) else (x : Int) - 4294967296

/-- The read `array[i]` for an `int` index. -/
def readI (array : List Int) (i : Int) : Option Int :=
  if i < 0 then none else array[i.toNat]?

/-- The tail shared by the five functions:
`++checks; if (key == array[i]) return i; return -1;` for an `unsigned int` index. -/
def final_check (array : List Int) (key : Int) (i : Nat) (checks : Int) : Option (Int × Int) :=
  match array[i]? with
  | none => none
  | some v => if key = v then some (toI32 i, checks + 1) else some (-1, checks + 1)

/-! ## standard_binary_search -/

/-- The loop `while (bot < i)` of `standard_binary_search`; returns `i` and `checks`
at loop exit. -/
def standard_loop (array : List Int) (key : Int) : Nat → Int → Int → Int → Option (Int × Int)
  | 0, _, _, _ => none
  | fuel + 1, bot, i, checks =>
    if bot < i then
      let mid := i - (i - bot).tdiv 2
      let checks := checks + 1
      match readI array mid with
      | none => none
      | some v =>
        if key < v then standard_loop array key fuel bot (mid - 1) checks
        else standard_loop array key fuel mid i checks
    else some (i, checks)

/-- The function `standard_binary_search(array, array_size, key)` run with the counter at
`checks`; the result is the returned value and the new counter. -/
def standard_binary_search (array : List Int) (array_size : Int) (key : Int) (checks : Int) :
    Option (Int × Int) :=
  match standard_loop array key (array_size.toNat + 1) 0 (array_size - 1) checks with
  | none => none
  | some (i, checks) =>
    match readI array i with
    | none => none
    | some v => if key = v then some (i, checks + 1) else some (-1, checks + 1)

/-! ## boundless_binary_search -/

/-- The loop `while (mid > 1)` of `boundless_binary_search`; returns `i` and `checks`. -/
def boundless_loop (array : List Int) (key : Int) : Nat → Nat → Nat → Int → Option (Nat × Int)
  | 0, _, _, _ => none
  | fuel + 1, i, mid, checks =>
    if mid > 1 then
      let checks := checks + 1
      match array[u32 (i + mid / 2)]? with
      | none => none
      | some v =>
        if key ≥ v then
          -- `i += mid++ / 2;` then `mid /= 2;`
          boundless_loop array key fuel (u32 (i + mid / 2)) (u32 (mid + 1) / 2) checks
        else boundless_loop array key fuel i (mid / 2) checks
    else some (i, checks)

/-- The function `boundless_binary_search(array, array_size, key)`. -/
def boundless_binary_search (array : List Int) (array_size : Int) (key : Int) (checks : Int) :
    Option (Int × Int) :=
  match boundless_loop array key (toU32 array_size + 1) 0 (toU32 array_size) checks with
  | none => none
  | some (i, checks) => final_check array key i checks

/-! ## monobound_binary_search -/

/-- The loop `while (top > 1)` of `monobound_binary_search`, which also ends
`monobound_quaternary_search` and the ascending branch of `monobound_interpolated_search`;
returns `bot` and `checks`. -/
def monobound_loop (array : List Int) (key : Int) : Nat → Nat → Nat → Int → Option (Nat × Int)
  | 0, _, _, _ => none
  | fuel + 1, bot, top, checks =>
    if top > 1 then
      let mid := top / 2
      let checks := checks + 1
      match array[u32 (bot + mid)]? with
      | none => none
      | some v =>
        monobound_loop array key fuel (if key ≥ v then u32 (bot + mid) else bot)
          (usub top mid) checks
    else some (bot, checks)

/-- The function `monobound_binary_search(array, array_size, key)`. -/
def monobound_binary_search (array : List Int) (array_size : Int) (key : Int) (checks : Int) :
    Option (Int × Int) :=
  match monobound_loop array key (toU32 array_size + 1) 0 (toU32 array_size) checks with
  | none => none
  | some (bot, checks) => final_check array key bot checks

/-! ## monobound_quaternary_search -/

/-- The loop `while (top >= 512)` of `monobound_quaternary_search`, with its three probes
and their `continue`; returns `bot`, `top` and `checks`. -/
def quaternary_loop (array : List Int) (key : Int) :
    Nat → Nat → Nat → Int → Option (Nat × Nat × Int)
  | 0, _, _, _ => none
  | fuel + 1, bot, top, checks =>
    if top ≥ 512 then
      let mid := top / 4
      let top := usub top (u32 (mid * 3))
      let checks := checks + 1
      match array[u32 (bot + mid)]? with
      | none => none
      | some v1 =>
        if key < v1 then quaternary_loop array key fuel bot top checks
        else
          let bot := u32 (bot + mid)
          let checks := checks + 1
          match array[u32 (bot + mid)]? with
          | none => none
          | some v2 =>
            if key < v2 then quaternary_loop array key fuel bot top checks
            else
              let bot := u32 (bot + mid)
              let checks := checks + 1
              match array[u32 (bot + mid)]? with
              | none => none
              | some v3 =>
                if key < v3 then quaternary_loop array key fuel bot top checks
                else quaternary_loop array key fuel (u32 (bot + mid)) top checks
    else some (bot, top, checks)

/-- The function `monobound_quaternary_search(array, array_size, key)`. -/
def monobound_quaternary_search (array : List Int) (array_size : Int) (key : Int)
    (checks : Int) : Option (Int × Int) :=
  match quaternary_loop array key (toU32 array_size + 1) 0 (toU32 array_size) checks with
  | none => none
  | some (bot, top, checks) =>
    match monobound_loop array key (top + 1) bot top checks with
    | none => none
    | some (bot, checks) => final_check array key bot checks

/-! ## monobound_interpolated_search -/

/-- Floor of the base-2 logarithm, `0` for `0` and `1`. -/
def ilog2_aux : Nat → Nat → Nat
  | 0, _ => 0
  | fuel + 1, n => if n ≤ 1 then 0 else ilog2_aux fuel (n / 2) + 1

/-- Floor of the base-2 logarithm, `0` for `0` and `1`. -/
def ilog2 (n : Nat) : Nat := ilog2_aux n n

/-- Rounding of the non-negative rational `num / den` to IEEE 754 binary32 (24 significant
bits, least exponent `-126`, unit in the last place at least `2^-149`), to nearest with
ties to even.  The result is a fraction `(numerator, denominator)`.  Overflow to infinity
is not modelled: every value rounded in `interpolate` is below `2^64`. -/
def f32_round (num den : Nat) : Nat × Nat :=
  let e := ilog2 (num * 2 ^ 126 / den)
  let n := num * 2 ^ (149 - e)
  let d := den * 2 ^ (e - 149)
  let sig := n / d
  let rem := n % d
  let sig := if d < 2 * rem ∨ (2 * rem = d ∧ sig % 2 = 1) then sig + 1 else sig
  (sig * 2 ^ (e - 149), 2 ^ (149 - e))

/-- The statement `i *= (float) (key - min) / (max - min);` for the `unsigned int` value
`i`, with `dx = key - min` and `dy = max - min` (`dy ≠ 0`): `dx` and `dy` are converted to
`float`, divided in `float`, `i` is converted to `float` and multiplied in `float`, and the
product is truncated to `unsigned int`.  Every operation rounds to binary32.  A product
whose integral part is not an `unsigned int` value is undefined behaviour: `none`. -/
def interpolate (i : Nat) (dx dy : Int) : Option Nat :=
  let fx := f32_round dx.natAbs 1
  let fy := f32_round dy.natAbs 1
  let q := f32_round (fx.1 * fy.2) (fx.2 * fy.1)
  let fi := f32_round i 1
  let p := f32_round (fi.1 * q.1) (fi.2 * q.2)
  let t := p.1 / p.2
  if (decide (dx < 0)) ≠ (decide (dy < 0)) then (if t = 0 then some 0 else none)
  else if t < 4294967296 then some t else none

/-- Subtraction of two `int` values; signed overflow is undefined behaviour: `none`. -/
def sub_i32 (a b : Int) : Option Int :=
  if -2147483648 ≤ a - b ∧ a - b < 2147483648 then some (a - b) else none

/-- The first `while (1)` loop of `monobound_interpolated_search` (doubling probe to the
right); returns `i`, `mid` and `checks` at the `break`. -/
def ascend_loop (array : List Int) (array_size : Int) (key : Int) :
    Nat → Nat → Nat → Int → Option (Nat × Nat × Int)
  | 0, _, _, _ => none
  | fuel + 1, i, mid, checks =>
    if u32 (i + mid) ≥ toU32 array_size then some (i, usub (toU32 array_size) i, checks)
    else
      let checks := checks + 1
      match array[u32 (i + mid)]? with
      | none => none
      | some v =>
        if key ≥ v then ascend_loop array array_size key fuel (u32 (i + mid)) (u32 (mid * 2)) checks
        else some (i, mid, checks)

/-- The second `while (1)` loop of `monobound_interpolated_search` (doubling probe to the
left); returns `i`, `mid` and `checks` at the `break`. -/
def descend_loop (array : List Int) (key : Int) :
    Nat → Nat → Nat → Int → Option (Nat × Nat × Int)
  | 0, _, _, _ => none
  | fuel + 1, i, mid, checks =>
    if i < mid then some (i, i, checks)
    else
      let checks := checks + 1
      match array[usub i mid]? with
      | none => none
      | some v =>
        if key ≤ v then descend_loop array key fuel (usub i mid) (u32 (mid * 2)) checks
        else some (i, mid, checks)

/-- The loop `while (top > 1)` of the descending branch of
`monobound_interpolated_search`; returns `i` and `checks`. -/
def monobound_down_loop (array : List Int) (key : Int) :
    Nat → Nat → Nat → Int → Option (Nat × Int)
  | 0, _, _, _ => none
  | fuel + 1, i, top, checks =>
    if top > 1 then
      let mid := top / 2
      let checks := checks + 1
      match array[usub i mid]? with
      | none => none
      | some v =>
        monobound_down_loop array key fuel (if key ≤ v then usub i mid else i)
          (usub top mid) checks
    else some (i, checks)

/-- The code of `monobound_interpolated_search` from the `++checks;` before
`if (key >= array[i])` to the end, entered with the starting index `i`. -/
def interpolated_from (array : List Int) (array_size : Int) (key : Int) (i : Nat)
    (checks : Int) : Option (Int × Int) :=
  let checks := checks + 1
  match array[i]? with
  | none => none
  | some v =>
    if key ≥ v then
      match ascend_loop array array_size key (toU32 array_size + 1) i 64 checks with
      | none => none
      | some (i, mid, checks) =>
        match monobound_loop array key (mid + 1) i mid checks with
        | none => none
        | some (i, checks) => final_check array key i checks
    else
      match descend_loop array key (i + 1) i 64 checks with
      | none => none
      | some (i, mid, checks) =>
        match monobound_down_loop array key (mid + 1) i mid checks with
        | none => none
        | some (i, checks) => final_check array key i checks

/-- The function `monobound_interpolated_search(array, array_size, key)`. -/
def monobound_interpolated_search (array : List Int) (array_size : Int) (key : Int)
    (checks : Int) : Option (Int × Int) :=
  let checks := checks + 1
  match array[0]? with
  | none => none
  | some a0 =>
    if key ≤ a0 ∨ array_size ≤ 1 then
      -- `return ++checks && array[0] == key ? 0 : -1;`
      let checks := checks + 1
      some (if checks ≠ 0 ∧ a0 = key then 0 else -1, checks)
    else
      let i := toU32 (array_size - 1)
      match array[i]? with
      | none => none
      | some max =>
        if max ≠ a0 then
          match sub_i32 key a0, sub_i32 max a0 with
          | some dx, some dy =>
            match interpolate i dx dy with
            | none => none
            | some i => interpolated_from array array_size key i checks
          | _, _ => none
        else interpolated_from array array_size key i checks

/-- Number of passes of the loop `while (top >= 512)` of `monobound_quaternary_search`
entered with the given `top`: each pass sets `mid = top / 4; top -= mid * 3;` whatever the
array and the key are. -/
def quaternary_passes (top : Nat) : Nat :=
  if h : top ≥ 512 then 1 + quaternary_passes (top - top / 4 * 3) else 0
termination_by top
decreasing_by omega

/-- Value of `top` when the loop `while (top >= 512)` of `monobound_quaternary_search`
exits, entered with the given `top`. -/
def quaternary_top (top : Nat) : Nat :=
  if h : top ≥ 512 then quaternary_top (top - top / 4 * 3) else top
termination_by top
decreasing_by omega

/-- Number of passes of the loop `while (top > 1)` of `monobound_binary_search` (and of
the second loop of `monobound_quaternary_search`) entered with the given `top`: each pass
sets `mid = top / 2; top -= mid;` whatever the array and the key are. -/
def monobound_passes (top : Nat) : Nat :=
  if h : top > 1 then 1 + monobound_passes (top - top / 2) else 0
termination_by top
decreasing_by omega

/-- The loop `while (top >= 512)` of `monobound_quaternary_search` with a count of its
passes: the code of `quaternary_loop`, with `passes` advanced each time the loop body is
entered; returns `bot`, `top`, `checks` and `passes`. -/
def quaternary_loop_passes (array : List Int) (key : Int) :
    Nat → Nat → Nat → Int → Nat → Option (Nat × Nat × Int × Nat)
  | 0, _, _, _, _ => none
  | fuel + 1, bot, top, checks, passes =>
    if top ≥ 512 then
      let passes := passes + 1
      let mid := top / 4
      let top := usub top (u32 (mid * 3))
      let checks := checks + 1
      match array[u32 (bot + mid)]? with
      | none => none
      | some v1 =>
        if key < v1 then quaternary_loop_passes array key fuel bot top checks passes
        else
          let bot := u32 (bot + mid)
          let checks := checks + 1
          match array[u32 (bot + mid)]? with
          | none => none
          | some v2 =>
            if key < v2 then quaternary_loop_passes array key fuel bot top checks passes
            else
              let bot := u32 (bot + mid)
              let checks := checks + 1
              match array[u32 (bot + mid)]? with
              | none => none
              | some v3 =>
                if key < v3 then quaternary_loop_passes array key fuel bot top checks passes
                else quaternary_loop_passes array key fuel (u32 (bot + mid)) top checks passes
    else some (bot, top, checks, passes)

/-- The loop `while (top > 1)` of `monobound_binary_search` with a count of its passes:
the code of `monobound_loop`, with `passes` advanced each time the loop body is entered;
returns `bot`, `checks` and `passes`. -/
def monobound_loop_passes (array : List Int) (key : Int) :
    Nat → Nat → Nat → Int → Nat → Option (Nat × Int × Nat)
  | 0, _, _, _, _ => none
  | fuel + 1, bot, top, checks, passes =>
    if top > 1 then
      let passes := passes + 1
      let mid := top / 2
      let checks := checks + 1
      match array[u32 (bot + mid)]? with
      | none => none
      | some v =>
        monobound_loop_passes array key fuel (if key ≥ v then u32 (bot + mid) else bot)
          (usub top mid) checks passes
    else some (bot, checks, passes)

/-! ## Helper lemmas: machine arithmetic and list reads -/

theorem u32_of_lt {x : Nat} (h : x < 4294967296) : u32 x = x :=
  Nat.mod_eq_of_lt h

theorem usub_of_le {a b : Nat} (hb : b ≤ a) (ha : a < 4294967296) : usub a b = a - b := by
  unfold usub
  omega

theorem toU32_natCast {n : Nat} (h : n < 4294967296) : toU32 (n : Int) = n := by
  unfold toU32
  omega

theorem toI32_of_lt {x : Nat} (h : x < 2147483648) : toI32 x = (x : Int) := by
  unfold toI32
  simp [h]

theorem getElem?_eq_getD (A : List Int) {j : Nat} (h : j < A.length) :
    A[j]? = some (A.getD j 0) := by
  simp [List.getD_eq_getElem?_getD, List.getElem?_eq_getElem h]

theorem readI_natCast (A : List Int) {j : Nat} (h : j < A.length) :
    readI A (j : Int) = some (A.getD j 0) := by
  unfold readI
  rw [if_neg (by omega), Int.toNat_ofNat, getElem?_eq_getD A h]

theorem sorted_getD {A : List Int} (hs : A.Sorted (· ≤ ·)) {i j : Nat} (hij : i ≤ j)
    (hj : j < A.length) : A.getD i 0 ≤ A.getD j 0 := by
  have hi : i < A.length := lt_of_le_of_lt hij hj
  have h := hs.rel_get_of_le (a := ⟨i, hi⟩) (b := ⟨j, hj⟩) hij
  simpa [List.getD_eq_getElem?_getD, List.getElem?_eq_getElem hi,
    List.getElem?_eq_getElem hj] using h

theorem mem_iff_getD {A : List Int} {key : Int} :
    key ∈ A ↔ ∃ j, j < A.length ∧ A.getD j 0 = key := by
  rw [List.mem_iff_getElem]
  constructor
  · rintro ⟨j, hj, h⟩
    exact ⟨j, hj, by simpa [List.getD_eq_getElem?_getD, List.getElem?_eq_getElem hj] using h⟩
  · rintro ⟨j, hj, h⟩
    exact ⟨j, hj, by simpa [List.getD_eq_getElem?_getD, List.getElem?_eq_getElem hj] using h⟩

/-! ## The monobound loop -/

theorem clog_two_step {top : Nat} (ht : 1 < top) :
    Nat.clog 2 top = Nat.clog 2 (top - top / 2) + 1 := by
  rw [Nat.clog_of_two_le (by norm_num) ht]
  congr 2
  omega

/-- The loop of `monobound_binary_search` started on the window `[bot, bot + top)` inside
the array ends after exactly `⌈log₂ top⌉` probes at an index `f` of the window; the index
has moved only past values `≤ key`, and on a sorted array every later index holds a value
above `key` if that was so from the end of the window on. -/
theorem monobound_loop_spec (A : List Int) (key : Int) (hlen : A.length < 2147483648) :
    ∀ (fuel bot top : Nat) (checks : Int), 1 ≤ top → bot + top ≤ A.length → top ≤ fuel →
      ∃ f, monobound_loop A key fuel bot top checks
          = some (f, checks + (Nat.clog 2 top : Int)) ∧
        bot ≤ f ∧ f < bot + top ∧ (f = bot ∨ A.getD f 0 ≤ key) ∧
        (A.Sorted (· ≤ ·) → (∀ j, bot + top ≤ j → j < A.length → key < A.getD j 0) →
          ∀ j, f < j → j < A.length → key < A.getD j 0) := by
  intro fuel
  induction fuel with
  | zero => intro bot top checks h1 _ h3; omega
  | succ fuel ih =>
    intro bot top checks h1 h2 h3
    unfold monobound_loop
    by_cases ht : top > 1
    · have hidx : bot + top / 2 < A.length := by omega
      simp only [ht, if_true]
      rw [u32_of_lt (by omega), getElem?_eq_getD A hidx, usub_of_le (by omega) (by omega)]
      simp only []
      have hclog := clog_two_step ht
      by_cases hk : key ≥ A.getD (bot + top / 2) 0
      · rw [if_pos hk]
        obtain ⟨f, hf, h4, h5, h6, h7⟩ :=
          ih (bot + top / 2) (top - top / 2) (checks + 1) (by omega) (by omega) (by omega)
        refine ⟨f, ?_, by omega, by omega, ?_, ?_⟩
        · rw [hf, hclog]; push_cast; ring_nf
        · rcases h6 with h6 | h6
          · right; rw [h6]; exact hk
          · right; exact h6
        · intro hs hup
          apply h7 hs
          intro j hj1 hj2
          exact hup j (by omega) hj2
      · rw [if_neg hk]
        obtain ⟨f, hf, h4, h5, h6, h7⟩ :=
          ih bot (top - top / 2) (checks + 1) (by omega) (by omega) (by omega)
        refine ⟨f, ?_, h4, by omega, h6, ?_⟩
        · rw [hf, hclog]; push_cast; ring_nf
        · intro hs hup
          apply h7 hs
          intro j hj1 hj2
          have h8 := sorted_getD hs (show bot + top / 2 ≤ j by omega) hj2
          have h9 : key < A.getD (bot + top / 2) 0 := lt_of_not_ge hk
          exact lt_of_lt_of_le h9 h8
    · have ht1 : top = 1 := by omega
      subst ht1
      refine ⟨bot, by simp, le_refl _, by omega, Or.inl rfl, ?_⟩
      intro _ hup j hj1 hj2
      exact hup j (by omega) hj2

/-! ## The final check and the search contract -/

theorem final_check_eq (A : List Int) (key : Int) {f : Nat} (checks : Int)
    (hf : f < A.length) (hlen : A.length < 2147483648) :
    final_check A key f checks
      = some (if key = A.getD f 0 then (f : Int) else -1, checks + 1) := by
  unfold final_check
  rw [getElem?_eq_getD A hf]
  simp only []
  rw [toI32_of_lt (by omega)]
  split <;> rfl

/-- On a sorted array, an index `f` that is `0` or holds a value `≤ key`, and after which
every value is above `key`, holds `key` exactly when `key` occurs in the array. -/
theorem mem_iff_getD_final {A : List Int} {key : Int} (hs : A.Sorted (· ≤ ·)) {f : Nat}
    (hf : f < A.length) (hlo : f = 0 ∨ A.getD f 0 ≤ key)
    (hup : ∀ j, f < j → j < A.length → key < A.getD j 0) :
    key ∈ A ↔ A.getD f 0 = key := by
  constructor
  · intro h
    obtain ⟨j, hj, hjk⟩ := mem_iff_getD.mp h
    have hjf : j ≤ f := by
      by_contra hc
      have := hup j (by omega) hj
      omega
    rcases Nat.eq_or_lt_of_le hjf with h1 | h1
    · rw [← h1]; exact hjk
    · have h2 : A.getD f 0 ≤ key := by
        rcases hlo with h3 | h3
        · omega
        · exact h3
      have h4 := sorted_getD hs hjf hf
      omega
  · intro h
    exact mem_iff_getD.mpr ⟨f, hf, h⟩

/-- The value returned by the final check at such an index meets the search contract. -/
theorem contract_of_final {A : List Int} {key : Int} (hs : A.Sorted (· ≤ ·)) {f : Nat}
    (hf : f < A.length) (hlo : f = 0 ∨ A.getD f 0 ≤ key)
    (hup : ∀ j, f < j → j < A.length → key < A.getD j 0) (r : Int)
    (hr : r = if key = A.getD f 0 then (f : Int) else -1) :
    (key ∈ A → 0 ≤ r ∧ r < A.length ∧ A[r.toNat]? = some key) ∧ (key ∉ A → r = -1) := by
  have hiff := mem_iff_getD_final hs hf hlo hup
  constructor
  · intro hmem
    have h1 := hiff.mp hmem
    rw [hr, if_pos h1.symm]
    refine ⟨by omega, by omega, ?_⟩
    rw [Int.toNat_ofNat, getElem?_eq_getD A hf, h1]
  · intro hmem
    have h1 : ¬ key = A.getD f 0 := fun h => hmem (hiff.mpr h.symm)
    rw [hr, if_neg h1]

/-! ## The standard loop -/

theorem log_two_step {s : Nat} (hs : 2 ≤ s) : Nat.log 2 s = Nat.log 2 (s / 2) + 1 :=
  Nat.log_of_one_lt_of_le (by norm_num) hs

/-- The loop of `standard_binary_search` started on `[bot, i]` inside the array ends at an
index `f` of that range after `n` probes, `⌊log₂ s⌋ ≤ n ≤ ⌈log₂ s⌉` for the span
`s = i - bot + 1`; `f` has moved up only onto values `≤ key` and down only from below
values above `key`. -/
theorem standard_loop_spec (A : List Int) (key : Int) :
    ∀ (fuel bot i : Nat) (checks : Int), bot ≤ i → i < A.length → i - bot < fuel →
      ∃ f n : Nat, standard_loop A key fuel (bot : Int) (i : Int) checks
          = some ((f : Int), checks + (n : Int)) ∧
        bot ≤ f ∧ f ≤ i ∧ (f = bot ∨ A.getD f 0 ≤ key) ∧ (f = i ∨ key < A.getD (f + 1) 0) ∧
        Nat.log 2 (i - bot + 1) ≤ n ∧ n ≤ Nat.clog 2 (i - bot + 1) := by
  intro fuel
  induction fuel with
  | zero => intro bot i checks _ _ h3; omega
  | succ fuel ih =>
    intro bot i checks h1 h2 h3
    unfold standard_loop
    by_cases hb : bot < i
    · have hb2 : (bot : Int) < (i : Int) := by omega
      have hmid : (i : Int) - ((i : Int) - (bot : Int)).tdiv 2
          = ((i - (i - bot) / 2 : Nat) : Int) := by
        rw [Int.tdiv_eq_ediv (by omega) (by norm_num)]
        omega
      have hm1 : ((i - (i - bot) / 2 : Nat) : Int) - 1 = ((i - (i - bot) / 2 - 1 : Nat) : Int) := by
        omega
      simp only [hb2, if_true]
      rw [hmid, readI_natCast A (by omega : i - (i - bot) / 2 < A.length)]
      simp only []
      have hlog := log_two_step (show 2 ≤ i - bot + 1 by omega)
      have hclog := clog_two_step (show 1 < i - bot + 1 by omega)
      have hmono1 : Nat.log 2 ((i - bot + 1) / 2) ≤ Nat.log 2 (i - bot + 1 - (i - bot + 1) / 2) :=
        Nat.log_mono_right (by omega)
      have hmono2 : Nat.clog 2 ((i - bot + 1) / 2) ≤ Nat.clog 2 (i - bot + 1 - (i - bot + 1) / 2) :=
        Nat.clog_mono_right 2 (by omega)
      by_cases hk : key < A.getD (i - (i - bot) / 2) 0
      · rw [if_pos hk, hm1]
        obtain ⟨f, n, hf, h4, h5, h6, h7, h8, h9⟩ :=
          ih bot (i - (i - bot) / 2 - 1) (checks + 1) (by omega) (by omega) (by omega)
        have e1 : i - (i - bot) / 2 - 1 - bot + 1 = (i - bot + 1) / 2 := by omega
        rw [e1] at h8 h9
        refine ⟨f, n + 1, ?_, h4, by omega, h6, ?_, by omega, by omega⟩
        · rw [hf]; push_cast; ring_nf
        · rcases h7 with h7 | h7
          · right
            rw [h7, show i - (i - bot) / 2 - 1 + 1 = i - (i - bot) / 2 by omega]
            exact hk
          · right; exact h7
      · rw [if_neg hk]
        obtain ⟨f, n, hf, h4, h5, h6, h7, h8, h9⟩ :=
          ih (i - (i - bot) / 2) i (checks + 1) (by omega) h2 (by omega)
        have e1 : i - (i - (i - bot) / 2) + 1 = i - bot + 1 - (i - bot + 1) / 2 := by omega
        rw [e1] at h8 h9
        refine ⟨f, n + 1, ?_, by omega, h5, ?_, h7, by omega, by omega⟩
        · rw [hf]; push_cast; ring_nf
        · right
          rcases h6 with h6 | h6
          · rw [h6]; exact le_of_not_lt hk
          · exact h6
    · have hbi : bot = i := by omega
      subst hbi
      have hb2 : ¬ ((bot : Int) < (bot : Int)) := by omega
      simp only [hb2, if_false]
      exact ⟨bot, 0, by simp, le_refl _, le_refl _, Or.inl rfl, Or.inl rfl, by simp, by simp⟩

/-- The whole of `standard_binary_search` on an array of length `N ≥ 1`: it probes `n + 1`
times and returns the outcome of the final check at the index `f` the loop ended at. -/
theorem standard_binary_search_eq (A : List Int) (key checks : Int) (hN : 1 ≤ A.length) :
    ∃ f n : Nat, standard_binary_search A (A.length : Int) key checks
        = some (if key = A.getD f 0 then (f : Int) else -1, checks + (n : Int) + 1) ∧
      f < A.length ∧ (f = 0 ∨ A.getD f 0 ≤ key) ∧
      (f = A.length - 1 ∨ key < A.getD (f + 1) 0) ∧
      Nat.log 2 A.length ≤ n ∧ n ≤ Nat.clog 2 A.length := by
  obtain ⟨f, n, hf, _, h5, h6, h7, h8, h9⟩ :=
    standard_loop_spec A key (A.length + 1) 0 (A.length - 1) checks (by omega) (by omega)
      (by omega)
  have e1 : A.length - 1 - 0 + 1 = A.length := by omega
  rw [e1] at h8 h9
  have e2 : ((A.length : Int) - 1) = ((A.length - 1 : Nat) : Int) := by omega
  refine ⟨f, n, ?_, by omega, h6, h7, h8, h9⟩
  have hf2 : standard_loop A key (A.length + 1) 0 ((A.length - 1 : Nat) : Int) checks
      = some ((f : Int), checks + (n : Int)) := hf
  unfold standard_binary_search
  rw [Int.toNat_ofNat, e2, hf2]
  simp only []
  rw [readI_natCast A (by omega : f < A.length)]
  simp only []
  split <;> rfl

/-! ## The boundless loop runs in lockstep with the standard loop -/

/-- The state `(i, mid)` of `boundless_binary_search` corresponds to the state
`(bot, i) = (i, i + mid - 1)` of `standard_binary_search`: from corresponding states the
two loops return the same index and the same counter. -/
theorem boundless_loop_eq_standard (A : List Int) (key : Int) (hlen : A.length < 2147483648) :
    ∀ (fuel i mid : Nat) (checks : Int), 1 ≤ mid → i + mid ≤ A.length →
      boundless_loop A key fuel i mid checks
        = (standard_loop A key fuel (i : Int) ((i + mid - 1 : Nat) : Int) checks).map
            (fun p => (p.1.toNat, p.2)) := by
  intro fuel
  induction fuel with
  | zero => intro i mid checks _ _; rfl
  | succ fuel ih =>
    intro i mid checks h1 h2
    unfold boundless_loop standard_loop
    by_cases hm : mid > 1
    · have hb2 : (i : Int) < ((i + mid - 1 : Nat) : Int) := by omega
      have hmid : ((i + mid - 1 : Nat) : Int) - (((i + mid - 1 : Nat) : Int) - (i : Int)).tdiv 2
          = ((i + mid / 2 : Nat) : Int) := by
        rw [Int.tdiv_eq_ediv (by omega) (by norm_num)]
        omega
      have hidx : i + mid / 2 < A.length := by omega
      simp only [hm, hb2, if_true]
      rw [hmid, readI_natCast A hidx, u32_of_lt (by omega), getElem?_eq_getD A hidx,
        u32_of_lt (by omega : mid + 1 < 4294967296)]
      simp only []
      by_cases hk : key < A.getD (i + mid / 2) 0
      · have hk2 : ¬ key ≥ A.getD (i + mid / 2) 0 := not_le.mpr hk
        rw [if_pos hk, if_neg hk2, ih i (mid / 2) (checks + 1) (by omega) (by omega)]
        have e : ((i + mid / 2 - 1 : Nat) : Int) = ((i + mid / 2 : Nat) : Int) - 1 := by omega
        rw [e]
      · have hk2 : key ≥ A.getD (i + mid / 2) 0 := not_lt.mp hk
        rw [if_neg hk, if_pos hk2,
          ih (i + mid / 2) ((mid + 1) / 2) (checks + 1) (by omega) (by omega)]
        have e : i + mid / 2 + (mid + 1) / 2 - 1 = i + mid - 1 := by omega
        rw [e]
    · have hm1 : i + mid - 1 = i := by omega
      simp only [hm, hm1, lt_self_iff_false, if_false, Option.map_some', Int.toNat_ofNat]

/-- On every array of length `1 ≤ N < 2^31`, `boundless_binary_search` returns exactly what
`standard_binary_search` returns, counter included. -/
theorem boundless_eq_standard (A : List Int) (key checks : Int) (hN : 1 ≤ A.length)
    (hlen : A.length < 2147483648) :
    boundless_binary_search A (A.length : Int) key checks
      = standard_binary_search A (A.length : Int) key checks := by
  obtain ⟨f, n, hf, _, h5, _⟩ :=
    standard_loop_spec A key (A.length + 1) 0 (A.length - 1) checks (by omega) (by omega)
      (by omega)
  have e2 : ((A.length : Int) - 1) = ((A.length - 1 : Nat) : Int) := by omega
  have e3 : 0 + A.length - 1 = A.length - 1 := by omega
  have hl := boundless_loop_eq_standard A key hlen (A.length + 1) 0 A.length checks hN
    (by omega)
  rw [e3] at hl
  have hf2 : standard_loop A key (A.length + 1) 0 ((A.length - 1 : Nat) : Int) checks
      = some ((f : Int), checks + (n : Int)) := hf
  have hl2 : boundless_loop A key (A.length + 1) 0 A.length checks
      = (standard_loop A key (A.length + 1) 0 ((A.length - 1 : Nat) : Int) checks).map
          (fun p => (p.1.toNat, p.2)) := hl
  unfold boundless_binary_search standard_binary_search
  rw [toU32_natCast (by omega), Int.toNat_ofNat, hl2, e2, hf2]
  simp only [Option.map_some', Int.toNat_ofNat]
  rw [final_check_eq A key _ (by omega : f < A.length) hlen,
    readI_natCast A (by omega : f < A.length)]
  simp only []
  split <;> rfl

/-! ## monobound_binary_search and the quaternary loop -/

/-- The whole of `monobound_binary_search` on an array of length `1 ≤ N < 2^31`: it probes
`⌈log₂ N⌉ + 1` times and returns the outcome of the final check at the index `f` the loop
ended at. -/
theorem monobound_binary_search_eq (A : List Int) (key checks : Int) (hN : 1 ≤ A.length)
    (hlen : A.length < 2147483648) :
    ∃ f : Nat, monobound_binary_search A (A.length : Int) key checks
        = some (if key = A.getD f 0 then (f : Int) else -1,
            checks + (Nat.clog 2 A.length : Int) + 1) ∧
      f < A.length ∧ (f = 0 ∨ A.getD f 0 ≤ key) ∧
      (A.Sorted (· ≤ ·) → ∀ j, f < j → j < A.length → key < A.getD j 0) := by
  obtain ⟨f, hf, _, h5, h6, h7⟩ :=
    monobound_loop_spec A key hlen (A.length + 1) 0 A.length checks hN (by omega) (by omega)
  refine ⟨f, ?_, by omega, h6, ?_⟩
  · unfold monobound_binary_search
    rw [toU32_natCast (by omega), hf]
    simp only []
    rw [final_check_eq A key _ (by omega : f < A.length) hlen]
  · intro hs
    exact h7 hs (fun j hj1 hj2 => by omega)

theorem quaternary_passes_of_lt {top : Nat} (h : top < 512) : quaternary_passes top = 0 := by
  rw [quaternary_passes, dif_neg (by omega)]

theorem quaternary_passes_of_ge {top : Nat} (h : top ≥ 512) :
    quaternary_passes top = 1 + quaternary_passes (top - top / 4 * 3) := by
  rw [quaternary_passes, dif_pos h]

theorem clog_two_quarter {top : Nat} (h : top ≥ 512) :
    Nat.clog 2 (top - top / 4 * 3) + 1 ≤ Nat.clog 2 top := by
  rw [clog_two_step (show 1 < top by omega)]
  have := Nat.clog_mono_right 2 (show top - top / 4 * 3 ≤ top - top / 2 by omega)
  omega

/-- The loop `while (top >= 512)` of `monobound_quaternary_search` started on the window
`[bot, bot + top)` inside the array ends on a window `[b, b + t)` inside it with
`1 ≤ t < 512`, after `n` probes; it does nothing when `top < 512`. -/
theorem quaternary_loop_spec (A : List Int) (key : Int) (hlen : A.length < 2147483648) :
    ∀ (fuel bot top : Nat) (checks : Int), 1 ≤ top → bot + top ≤ A.length → top ≤ fuel →
      ∃ b t n : Nat, quaternary_loop A key fuel bot top checks
          = some (b, t, checks + (n : Int)) ∧
        1 ≤ t ∧ t < 512 ∧ (top < 512 → b = bot ∧ t = top ∧ n = 0) ∧
        bot ≤ b ∧ b + t ≤ bot + top ∧ (b = bot ∨ A.getD b 0 ≤ key) ∧
        (A.Sorted (· ≤ ·) → (∀ j, bot + top ≤ j → j < A.length → key < A.getD j 0) →
          ∀ j, b + t ≤ j → j < A.length → key < A.getD j 0) ∧
        n + Nat.clog 2 t ≤ Nat.clog 2 top + 2 * quaternary_passes top := by
  intro fuel
  induction fuel with
  | zero => intro bot top checks h1 _ h3; omega
  | succ fuel ih =>
    intro bot top checks h1 h2 h3
    unfold quaternary_loop
    by_cases ht : top ≥ 512
    · have e1 : u32 (top / 4 * 3) = top / 4 * 3 := u32_of_lt (by omega)
      have e2 : usub top (top / 4 * 3) = top - top / 4 * 3 := usub_of_le (by omega) (by omega)
      have i1 : u32 (bot + top / 4) = bot + top / 4 := u32_of_lt (by omega)
      have i2 : u32 (bot + top / 4 + top / 4) = bot + top / 4 + top / 4 :=
        u32_of_lt (by omega)
      have i3 : u32 (bot + top / 4 + top / 4 + top / 4) = bot + top / 4 + top / 4 + top / 4 :=
        u32_of_lt (by omega)
      have r1 := getElem?_eq_getD A (show bot + top / 4 < A.length by omega)
      have r2 := getElem?_eq_getD A (show bot + top / 4 + top / 4 < A.length by omega)
      have r3 := getElem?_eq_getD A (show bot + top / 4 + top / 4 + top / 4 < A.length by omega)
      have hp := quaternary_passes_of_ge ht
      have hc := clog_two_quarter ht
      simp only [ht, if_true, e1, e2, i1, i2, i3, r1, r2, r3]
      by_cases k1 : key < A.getD (bot + top / 4) 0
      · rw [if_pos k1]
        obtain ⟨b, t, n, hq, q1, q2, _, q4, q5, q6, q7, q8⟩ :=
          ih bot (top - top / 4 * 3) (checks + 1) (by omega) (by omega) (by omega)
        refine ⟨b, t, n + 1, ?_, q1, q2, by omega, q4, by omega, q6, ?_, by omega⟩
        · rw [hq]; push_cast; ring_nf
        · intro hs hup
          apply q7 hs
          intro j hj1 hj2
          exact lt_of_lt_of_le k1 (sorted_getD hs (by omega) hj2)
      · rw [if_neg k1]
        by_cases k2 : key < A.getD (bot + top / 4 + top / 4) 0
        · rw [if_pos k2]
          obtain ⟨b, t, n, hq, q1, q2, _, q4, q5, q6, q7, q8⟩ :=
            ih (bot + top / 4) (top - top / 4 * 3) (checks + 1 + 1) (by omega) (by omega)
              (by omega)
          refine ⟨b, t, n + 2, ?_, q1, q2, by omega, by omega, by omega, ?_, ?_, by omega⟩
          · rw [hq]; push_cast; ring_nf
          · right
            rcases q6 with q6 | q6
            · rw [q6]; exact le_of_not_lt k1
            · exact q6
          · intro hs hup
            apply q7 hs
            intro j hj1 hj2
            exact lt_of_lt_of_le k2 (sorted_getD hs (by omega) hj2)
        · rw [if_neg k2]
          by_cases k3 : key < A.getD (bot + top / 4 + top / 4 + top / 4) 0
          · rw [if_pos k3]
            obtain ⟨b, t, n, hq, q1, q2, _, q4, q5, q6, q7, q8⟩ :=
              ih (bot + top / 4 + top / 4) (top - top / 4 * 3) (checks + 1 + 1 + 1)
                (by omega) (by omega) (by omega)
            refine ⟨b, t, n + 3, ?_, q1, q2, by omega, by omega, by omega, ?_, ?_, by omega⟩
            · rw [hq]; push_cast; ring_nf
            · right
              rcases q6 with q6 | q6
              · rw [q6]; exact le_of_not_lt k2
              · exact q6
            · intro hs hup
              apply q7 hs
              intro j hj1 hj2
              exact lt_of_lt_of_le k3 (sorted_getD hs (by omega) hj2)
          · rw [if_neg k3]
            obtain ⟨b, t, n, hq, q1, q2, _, q4, q5, q6, q7, q8⟩ :=
              ih (bot + top / 4 + top / 4 + top / 4) (top - top / 4 * 3) (checks + 1 + 1 + 1)
                (by omega) (by omega) (by omega)
            refine ⟨b, t, n + 3, ?_, q1, q2, by omega, by omega, by omega, ?_, ?_, by omega⟩
            · rw [hq]; push_cast; ring_nf
            · right
              rcases q6 with q6 | q6
              · rw [q6]; exact le_of_not_lt k3
              · exact q6
            · intro hs hup
              apply q7 hs
              intro j hj1 hj2
              exact hup j (by omega) hj2
    · simp only [ht, if_false]
      refine ⟨bot, top, 0, by simp, h1, by omega, fun _ => ⟨rfl, rfl, rfl⟩, le_refl _,
        le_refl _, Or.inl rfl, fun _ hup => hup, by omega⟩

/-- The whole of `monobound_quaternary_search` on an array of length `1 ≤ N < 2^31`: it
probes `n + 1` times, `n` at most `⌈log₂ N⌉` plus two for every pass of the quaternary loop,
and returns the outcome of the final check at the index `f` the loops ended at. -/
theorem monobound_quaternary_search_eq (A : List Int) (key checks : Int) (hN : 1 ≤ A.length)
    (hlen : A.length < 2147483648) :
    ∃ f n : Nat, monobound_quaternary_search A (A.length : Int) key checks
        = some (if key = A.getD f 0 then (f : Int) else -1, checks + (n : Int) + 1) ∧
      f < A.length ∧ (f = 0 ∨ A.getD f 0 ≤ key) ∧
      (A.Sorted (· ≤ ·) → ∀ j, f < j → j < A.length → key < A.getD j 0) ∧
      n ≤ Nat.clog 2 A.length + 2 * quaternary_passes A.length := by
  obtain ⟨b, t, n, hq, q1, q2, _, _, q5, q6, q7, q8⟩ :=
    quaternary_loop_spec A key hlen (A.length + 1) 0 A.length checks hN (by omega) (by omega)
  obtain ⟨f, hf, m4, m5, m6, m7⟩ :=
    monobound_loop_spec A key hlen (t + 1) b t (checks + (n : Int)) q1 (by omega) (by omega)
  refine ⟨f, n + Nat.clog 2 t, ?_, by omega, ?_, ?_, q8⟩
  · unfold monobound_quaternary_search
    rw [toU32_natCast (by omega), hq]
    simp only []
    rw [hf]
    simp only []
    rw [final_check_eq A key _ (by omega : f < A.length) hlen]
    push_cast
    rw [add_assoc checks]
  · rcases m6 with m6 | m6
    · rcases q6 with q6 | q6
      · left; omega
      · right; rw [m6]; exact q6
    · right; exact m6
  · intro hs
    exact m7 hs (q7 hs (fun j hj1 hj2 => by omega))

/-- With `top < 512` on entry the quaternary loop is skipped, so
`monobound_quaternary_search` runs the very code of `monobound_binary_search`. -/
theorem quaternary_eq_monobound_of_lt (A : List Int) (key checks : Int)
    (h512 : A.length < 512) :
    monobound_quaternary_search A (A.length : Int) key checks
      = monobound_binary_search A (A.length : Int) key checks := by
  unfold monobound_quaternary_search monobound_binary_search
  rw [toU32_natCast (by omega)]
  have hq : quaternary_loop A key (A.length + 1) 0 A.length checks
      = some (0, A.length, checks) := by
    unfold quaternary_loop
    simp only [ge_iff_le, not_le.mpr h512, if_false]
  rw [hq]

/-! ## The claims on the four bisection variants -/

/-- C1: on a non-decreasing array of length `N ≥ 1`, `standard_binary_search` returns an
index `r` with `0 ≤ r < N` and `A[r] = key` when `key` occurs in `A`, and `-1` when it
does not. -/
theorem standard_binary_search_correct (A : List Int) (key checks : Int)
    (hN : 1 ≤ A.length) (hs : A.Sorted (· ≤ ·)) :
    ∃ r c : Int, standard_binary_search A (A.length : Int) key checks = some (r, c) ∧
      (key ∈ A → 0 ≤ r ∧ r < A.length ∧ A[r.toNat]? = some key) ∧ (key ∉ A → r = -1) := by
  obtain ⟨f, n, hf, h1, h2, h3, _, _⟩ := standard_binary_search_eq A key checks hN
  refine ⟨_, _, hf, contract_of_final hs h1 h2 ?_ _ rfl⟩
  intro j hj1 hj2
  rcases h3 with h3 | h3
  · omega
  · exact lt_of_lt_of_le h3 (sorted_getD hs (by omega) hj2)

theorem standard_binary_search_correct_witness :
    1 ≤ ([1, 3, 3, 3, 7] : List Int).length ∧ ([1, 3, 3, 3, 7] : List Int).Sorted (· ≤ ·) ∧
    ∃ r c : Int, standard_binary_search [1, 3, 3, 3, 7]
        (([1, 3, 3, 3, 7] : List Int).length : Int) 3 0 = some (r, c) ∧
      ((3 : Int) ∈ ([1, 3, 3, 3, 7] : List Int) →
        0 ≤ r ∧ r < ([1, 3, 3, 3, 7] : List Int).length ∧
          ([1, 3, 3, 3, 7] : List Int)[r.toNat]? = some 3) ∧
      ((3 : Int) ∉ ([1, 3, 3, 3, 7] : List Int) → r = -1) :=
  ⟨by decide, by decide,
    standard_binary_search_correct [1, 3, 3, 3, 7] 3 0 (by decide) (by decide)⟩

/-- C2: on a non-decreasing array of length `N ≥ 1` (`N < 2^31`, the range of the `int`
parameter `array_size`), `monobound_binary_search` returns an index `r` with `0 ≤ r < N`
and `A[r] = key` when `key` occurs in `A`, and `-1` when it does not. -/
theorem monobound_binary_search_correct (A : List Int) (key checks : Int)
    (hN : 1 ≤ A.length) (hlen : A.length < 2147483648) (hs : A.Sorted (· ≤ ·)) :
    ∃ r c : Int, monobound_binary_search A (A.length : Int) key checks = some (r, c) ∧
      (key ∈ A → 0 ≤ r ∧ r < A.length ∧ A[r.toNat]? = some key) ∧ (key ∉ A → r = -1) := by
  obtain ⟨f, hf, h1, h2, h3⟩ := monobound_binary_search_eq A key checks hN hlen
  exact ⟨_, _, hf, contract_of_final hs h1 h2 (h3 hs) _ rfl⟩

theorem monobound_binary_search_correct_witness :
    1 ≤ ([1, 3, 3, 3, 7] : List Int).length ∧
    ([1, 3, 3, 3, 7] : List Int).length < 2147483648 ∧
    ([1, 3, 3, 3, 7] : List Int).Sorted (· ≤ ·) ∧
    ∃ r c : Int, monobound_binary_search [1, 3, 3, 3, 7]
        (([1, 3, 3, 3, 7] : List Int).length : Int) 3 0 = some (r, c) ∧
      ((3 : Int) ∈ ([1, 3, 3, 3, 7] : List Int) →
        0 ≤ r ∧ r < ([1, 3, 3, 3, 7] : List Int).length ∧
          ([1, 3, 3, 3, 7] : List Int)[r.toNat]? = some 3) ∧
      ((3 : Int) ∉ ([1, 3, 3, 3, 7] : List Int) → r = -1) :=
  ⟨by decide, by decide, by decide,
    monobound_binary_search_correct [1, 3, 3, 3, 7] 3 0 (by decide) (by decide) (by decide)⟩

/-- C3: on a non-decreasing array of length `N ≥ 1` (`N < 2^31`, the range of the `int`
parameter `array_size`; `N ≥ 512` included), `monobound_quaternary_search` returns an
index `r` with `0 ≤ r < N` and `A[r] = key` when `key` occurs in `A`, and `-1` when it
does not. -/
theorem monobound_quaternary_search_correct (A : List Int) (key checks : Int)
    (hN : 1 ≤ A.length) (hlen : A.length < 2147483648) (hs : A.Sorted (· ≤ ·)) :
    ∃ r c : Int, monobound_quaternary_search A (A.length : Int) key checks = some (r, c) ∧
      (key ∈ A → 0 ≤ r ∧ r < A.length ∧ A[r.toNat]? = some key) ∧ (key ∉ A → r = -1) := by
  obtain ⟨f, n, hf, h1, h2, h3, _⟩ := monobound_quaternary_search_eq A key checks hN hlen
  exact ⟨_, _, hf, contract_of_final hs h1 h2 (h3 hs) _ rfl⟩

theorem monobound_quaternary_search_correct_witness :
    1 ≤ (List.replicate 600 (3 : Int)).length ∧
    (List.replicate 600 (3 : Int)).length < 2147483648 ∧
    (List.replicate 600 (3 : Int)).Sorted (· ≤ ·) ∧
    ∃ r c : Int, monobound_quaternary_search (List.replicate 600 3)
        ((List.replicate 600 (3 : Int)).length : Int) 3 0 = some (r, c) ∧
      ((3 : Int) ∈ List.replicate 600 (3 : Int) →
        0 ≤ r ∧ r < (List.replicate 600 (3 : Int)).length ∧
          (List.replicate 600 (3 : Int))[r.toNat]? = some 3) ∧
      ((3 : Int) ∉ List.replicate 600 (3 : Int) → r = -1) :=
  ⟨by simp only [List.length_replicate]; norm_num, by simp only [List.length_replicate]; norm_num, List.pairwise_replicate.mpr (Or.inr le_rfl),
    monobound_quaternary_search_correct (List.replicate 600 3) 3 0 (by simp only [List.length_replicate]; norm_num) (by simp only [List.length_replicate]; norm_num)
      (List.pairwise_replicate.mpr (Or.inr le_rfl))⟩

/-- C4: on every array of length `N ≥ 1` (`N < 2^31`), sorted or not, and every key,
`boundless_binary_search` and `standard_binary_search` return the same value and advance
the comparison counter by the same amount `n`. -/
theorem boundless_equiv_standard (A : List Int) (key checks : Int) (hN : 1 ≤ A.length)
    (hlen : A.length < 2147483648) :
    ∃ (r : Int) (n : Nat),
      standard_binary_search A (A.length : Int) key checks = some (r, checks + (n : Int)) ∧
      boundless_binary_search A (A.length : Int) key checks = some (r, checks + (n : Int)) := by
  obtain ⟨f, n, hf, _⟩ := standard_binary_search_eq A key checks hN
  refine ⟨if key = A.getD f 0 then (f : Int) else -1, n + 1, ?_, ?_⟩
  · rw [hf]; push_cast; rw [add_assoc]
  · rw [boundless_eq_standard A key checks hN hlen, hf]; push_cast; rw [add_assoc]

theorem boundless_equiv_standard_witness :
    1 ≤ ([9, 2, 7, 2, 5] : List Int).length ∧
    ([9, 2, 7, 2, 5] : List Int).length < 2147483648 ∧
    ∃ (r : Int) (n : Nat),
      standard_binary_search [9, 2, 7, 2, 5] (([9, 2, 7, 2, 5] : List Int).length : Int) 7 0
        = some (r, 0 + (n : Int)) ∧
      boundless_binary_search [9, 2, 7, 2, 5] (([9, 2, 7, 2, 5] : List Int).length : Int) 7 0
        = some (r, 0 + (n : Int)) :=
  ⟨by decide, by decide, boundless_equiv_standard [9, 2, 7, 2, 5] 7 0 (by decide) (by decide)⟩

/-- C7, as stated, fails: on the sorted array `[1, 2, 3]` with key `0` the standard and
boundless searches advance the counter by 2 and the monobound search by 3. -/
theorem count_parity_counterexample :
    ([1, 2, 3] : List Int).Sorted (· ≤ ·) ∧
    standard_binary_search [1, 2, 3] 3 0 0 = some (-1, 2) ∧
    boundless_binary_search [1, 2, 3] 3 0 0 = some (-1, 2) ∧
    monobound_binary_search [1, 2, 3] 3 0 0 = some (-1, 3) := by
  decide

/-- C7, amended: on every array of length `N ≥ 1` (`N < 2^31`) and every key,
`standard_binary_search` and `boundless_binary_search` advance the comparison counter by
the same amount, and `monobound_binary_search` advances it by at least that amount. -/
theorem count_standard_boundless_le_monobound (A : List Int) (key checks : Int)
    (hN : 1 ≤ A.length) (hlen : A.length < 2147483648) :
    ∃ (r r3 : Int) (n n3 : Nat),
      standard_binary_search A (A.length : Int) key checks = some (r, checks + (n : Int)) ∧
      boundless_binary_search A (A.length : Int) key checks = some (r, checks + (n : Int)) ∧
      monobound_binary_search A (A.length : Int) key checks = some (r3, checks + (n3 : Int)) ∧
      n ≤ n3 := by
  obtain ⟨f, n, hf, _, _, _, _, h9⟩ := standard_binary_search_eq A key checks hN
  obtain ⟨g, hg, _⟩ := monobound_binary_search_eq A key checks hN hlen
  refine ⟨if key = A.getD f 0 then (f : Int) else -1,
    if key = A.getD g 0 then (g : Int) else -1, n + 1, Nat.clog 2 A.length + 1, ?_, ?_, ?_,
    by omega⟩
  · rw [hf]; push_cast; rw [add_assoc]
  · rw [boundless_eq_standard A key checks hN hlen, hf]; push_cast; rw [add_assoc]
  · rw [hg]; push_cast; rw [add_assoc]

theorem count_standard_boundless_le_monobound_witness :
    1 ≤ ([1, 2, 3] : List Int).length ∧ ([1, 2, 3] : List Int).length < 2147483648 ∧
    ∃ (r r3 : Int) (n n3 : Nat),
      standard_binary_search [1, 2, 3] (([1, 2, 3] : List Int).length : Int) 0 0
        = some (r, 0 + (n : Int)) ∧
      boundless_binary_search [1, 2, 3] (([1, 2, 3] : List Int).length : Int) 0 0
        = some (r, 0 + (n : Int)) ∧
      monobound_binary_search [1, 2, 3] (([1, 2, 3] : List Int).length : Int) 0 0
        = some (r3, 0 + (n3 : Int)) ∧
      n ≤ n3 :=
  ⟨by decide, by decide,
    count_standard_boundless_le_monobound [1, 2, 3] 0 0 (by decide) (by decide)⟩

set_option maxRecDepth 100000 in
/-- C8, as stated, fails: on the sorted array of 512 zeros with key `0` all three probes of
the quaternary pass succeed, and `monobound_quaternary_search` advances the counter by 11
where `monobound_binary_search` advances it by 10. -/
theorem quaternary_count_counterexample :
    monobound_quaternary_search (List.replicate 512 0) 512 0 0 = some (511, 11) ∧
    monobound_binary_search (List.replicate 512 0) 512 0 0 = some (511, 10) := by
  decide

/-- C8, amended: on every array of length `N ≥ 512` (`N < 2^31`) and every key, the
counter advance `q` of `monobound_quaternary_search` is at most the advance `m` of
`monobound_binary_search` plus two for each pass of the `top >= 512` loop. -/
theorem quaternary_count_le (A : List Int) (key checks : Int)
    (hN : 512 ≤ A.length) (hlen : A.length < 2147483648) :
    ∃ (r r3 : Int) (q m : Nat),
      monobound_quaternary_search A (A.length : Int) key checks
        = some (r, checks + (q : Int)) ∧
      monobound_binary_search A (A.length : Int) key checks = some (r3, checks + (m : Int)) ∧
      q ≤ m + 2 * quaternary_passes A.length := by
  obtain ⟨f, n, hf, _, _, _, h9⟩ :=
    monobound_quaternary_search_eq A key checks (by omega) hlen
  obtain ⟨g, hg, _⟩ := monobound_binary_search_eq A key checks (by omega) hlen
  refine ⟨if key = A.getD f 0 then (f : Int) else -1,
    if key = A.getD g 0 then (g : Int) else -1, n + 1, Nat.clog 2 A.length + 1, ?_, ?_,
    by omega⟩
  · rw [hf]; push_cast; rw [add_assoc]
  · rw [hg]; push_cast; rw [add_assoc]

theorem quaternary_count_le_witness :
    512 ≤ (List.replicate 512 (0 : Int)).length ∧
    (List.replicate 512 (0 : Int)).length < 2147483648 ∧
    ∃ (r r3 : Int) (q m : Nat),
      monobound_quaternary_search (List.replicate 512 0)
        ((List.replicate 512 (0 : Int)).length : Int) 0 0 = some (r, 0 + (q : Int)) ∧
      monobound_binary_search (List.replicate 512 0)
        ((List.replicate 512 (0 : Int)).length : Int) 0 0 = some (r3, 0 + (m : Int)) ∧
      q ≤ m + 2 * quaternary_passes (List.replicate 512 (0 : Int)).length :=
  ⟨by simp only [List.length_replicate]; norm_num, by simp only [List.length_replicate]; norm_num, quaternary_count_le (List.replicate 512 0) 0 0 (by simp only [List.length_replicate]; norm_num) (by simp only [List.length_replicate]; norm_num)⟩

/-- C9, as stated, fails: on `[1, 2, 3]` with key `0`, `standard_binary_search` advances
the counter by 2, while `⌈log₂ 3⌉ + 1 = 3`. -/
theorem standard_count_counterexample :
    standard_binary_search [1, 2, 3] 3 0 0 = some (-1, 2) ∧ Nat.clog 2 3 + 1 = 3 := by
  refine ⟨by decide, ?_⟩
  simp [Nat.clog]

/-- C9, amended: on every array of length `N ≥ 1` and every key, `standard_binary_search`
advances the comparison counter by `n` with `⌊log₂ N⌋ + 1 ≤ n ≤ ⌈log₂ N⌉ + 1` (one per
loop iteration and one for the final equality test). -/
theorem standard_count_bounds (A : List Int) (key checks : Int) (hN : 1 ≤ A.length) :
    ∃ (r : Int) (n : Nat),
      standard_binary_search A (A.length : Int) key checks = some (r, checks + (n : Int)) ∧
      Nat.log 2 A.length + 1 ≤ n ∧ n ≤ Nat.clog 2 A.length + 1 := by
  obtain ⟨f, n, hf, _, _, _, h8, h9⟩ := standard_binary_search_eq A key checks hN
  refine ⟨if key = A.getD f 0 then (f : Int) else -1, n + 1, ?_, by omega, by omega⟩
  rw [hf]; push_cast; rw [add_assoc]

theorem standard_count_bounds_witness :
    1 ≤ ([1, 2, 3] : List Int).length ∧
    ∃ (r : Int) (n : Nat),
      standard_binary_search [1, 2, 3] (([1, 2, 3] : List Int).length : Int) 0 0
        = some (r, 0 + (n : Int)) ∧
      Nat.log 2 ([1, 2, 3] : List Int).length + 1 ≤ n ∧
      n ≤ Nat.clog 2 ([1, 2, 3] : List Int).length + 1 :=
  ⟨by decide, standard_count_bounds [1, 2, 3] 0 0 (by decide)⟩

/-- C10: on every array of length `1 ≤ N < 512` and every key,
`monobound_quaternary_search` and `monobound_binary_search` return the same value and
advance the comparison counter by the same amount `n`. -/
theorem quaternary_equiv_monobound_small (A : List Int) (key checks : Int)
    (hN : 1 ≤ A.length) (h512 : A.length < 512) :
    ∃ (r : Int) (n : Nat),
      monobound_binary_search A (A.length : Int) key checks = some (r, checks + (n : Int)) ∧
      monobound_quaternary_search A (A.length : Int) key checks
        = some (r, checks + (n : Int)) := by
  obtain ⟨g, hg, _⟩ := monobound_binary_search_eq A key checks hN (by omega)
  refine ⟨if key = A.getD g 0 then (g : Int) else -1, Nat.clog 2 A.length + 1, ?_, ?_⟩
  · rw [hg]; push_cast; rw [add_assoc]
  · rw [quaternary_eq_monobound_of_lt A key checks h512, hg]; push_cast; rw [add_assoc]

theorem quaternary_equiv_monobound_small_witness :
    1 ≤ ([9, 2, 7, 2, 5] : List Int).length ∧ ([9, 2, 7, 2, 5] : List Int).length < 512 ∧
    ∃ (r : Int) (n : Nat),
      monobound_binary_search [9, 2, 7, 2, 5] (([9, 2, 7, 2, 5] : List Int).length : Int) 7 0
        = some (r, 0 + (n : Int)) ∧
      monobound_quaternary_search [9, 2, 7, 2, 5]
        (([9, 2, 7, 2, 5] : List Int).length : Int) 7 0 = some (r, 0 + (n : Int)) :=
  ⟨by decide, by decide,
    quaternary_equiv_monobound_small [9, 2, 7, 2, 5] 7 0 (by decide) (by decide)⟩

/-! ## Rounding to binary32 -/

theorem ilog2_aux_eq_log : ∀ (fuel n : Nat), n ≤ fuel → ilog2_aux fuel n = Nat.log 2 n := by
  intro fuel
  induction fuel with
  | zero =>
    intro n h
    have h0 : n = 0 := by omega
    subst h0
    simp [ilog2_aux]
  | succ fuel ih =>
    intro n h
    unfold ilog2_aux
    by_cases h1 : n ≤ 1
    · rw [if_pos h1, Nat.log_of_lt (by omega)]
    · rw [if_neg h1, ih (n / 2) (by omega)]
      exact (Nat.log_of_one_lt_of_le (by norm_num) (by omega)).symm

theorem ilog2_eq_log (n : Nat) : ilog2 n = Nat.log 2 n :=
  ilog2_aux_eq_log n n le_rfl

theorem two_pow_trunc_sub (a b : Nat) :
    (2 : ℚ) ^ (a - b) / (2 : ℚ) ^ (b - a) = (2 : ℚ) ^ ((a : Int) - (b : Int)) := by
  rcases le_total a b with h | h
  · obtain ⟨c, rfl⟩ := Nat.exists_eq_add_of_le h
    have e1 : a - (a + c) = 0 := by omega
    have e2 : a + c - a = c := by omega
    have e3 : ((a : Int) - ((a + c : Nat) : Int)) = -(c : Int) := by push_cast; ring
    rw [e1, e2, e3, zpow_neg, zpow_natCast]
    simp
  · obtain ⟨c, rfl⟩ := Nat.exists_eq_add_of_le h
    have e1 : b - (b + c) = 0 := by omega
    have e2 : b + c - b = c := by omega
    have e3 : (((b + c : Nat) : Int) - (b : Int)) = (c : Int) := by push_cast; ring
    rw [e1, e2, e3, zpow_natCast]
    simp

theorem f32_round_snd_pos (num den : Nat) : 0 < (f32_round num den).2 := by
  unfold f32_round
  simp only []
  positivity



set_option maxRecDepth 10000 in
/-- Rounding to binary32 of a rational `num / den ≥ 2^-126`: the result is `sig * 2^e` with
`sig ≤ 2^24`, the input is at least `2^23 * 2^e`, and the error is at most half of `2^e`. -/
theorem f32_round_spec (num den : Nat) (hd : 0 < den) (hn : den ≤ num * 2 ^ 126) :
    ∃ (sig : Nat) (e : Int),
      ((f32_round num den).1 : ℚ) / ((f32_round num den).2 : ℚ) = (sig : ℚ) * (2 : ℚ) ^ e ∧
      sig ≤ 2 ^ 24 ∧ (2 : ℚ) ^ 23 * (2 : ℚ) ^ e ≤ (num : ℚ) / (den : ℚ) ∧
      |(num : ℚ) / (den : ℚ) - (sig : ℚ) * (2 : ℚ) ^ e| ≤ (2 : ℚ) ^ e / 2 := by
  have hq0 : 1 ≤ num * 2 ^ 126 / den := (Nat.le_div_iff_mul_le hd).mpr (by omega)
  have hE1 := Nat.pow_log_le_self 2 (show num * 2 ^ 126 / den ≠ 0 by omega)
  have hE2 := Nat.lt_pow_succ_log_self (show 1 < 2 by norm_num) (num * 2 ^ 126 / den)
  rw [← ilog2_eq_log] at hE1 hE2
  unfold f32_round
  simp only []
  generalize hE : ilog2 (num * 2 ^ 126 / den) = E at hE1 hE2 ⊢
  have hE3 : 2 ^ E * den ≤ num * 2 ^ 126 := (Nat.le_div_iff_mul_le hd).mp hE1
  have hE4 : num * 2 ^ 126 < 2 ^ E.succ * den := (Nat.div_lt_iff_lt_mul hd).mp hE2
  -- the unit in the last place
  have hu : (0 : ℚ) < (2 : ℚ) ^ ((E : Int) - 149) := by positivity
  have hdq : (0 : ℚ) < (den : ℚ) := by exact_mod_cast hd
  have hE3q : (2 : ℚ) ^ E * (den : ℚ) ≤ (num : ℚ) * 2 ^ 126 := by exact_mod_cast hE3
  have hE4q : (num : ℚ) * 2 ^ 126 < (2 : ℚ) ^ (E + 1) * (den : ℚ) := by exact_mod_cast hE4
  have hsplit : (2 : ℚ) ^ ((E : Int) - 149) = (2 : ℚ) ^ E / 2 ^ 149 := by
    rw [zpow_sub₀ (by norm_num), zpow_natCast]
    norm_num
  -- the scaled numerator and denominator
  have hnd : ((num * 2 ^ (149 - E) : Nat) : ℚ) / ((den * 2 ^ (E - 149) : Nat) : ℚ)
      = (num : ℚ) / (den : ℚ) / (2 : ℚ) ^ ((E : Int) - 149) := by
    have h1 := two_pow_trunc_sub 149 E
    have h2 : (2 : ℚ) ^ (((149 : Nat) : Int) - (E : Int)) = ((2 : ℚ) ^ ((E : Int) - 149))⁻¹ := by
      rw [← zpow_neg]; congr 1; push_cast; ring
    have h3 := h1.trans h2
    push_cast
    rw [mul_div_mul_comm, h3, div_eq_mul_inv ((num : ℚ) / (den : ℚ))]
  -- the division with remainder
  have hdpos : 0 < den * 2 ^ (E - 149) := by positivity
  have hdposq : (0 : ℚ) < ((den * 2 ^ (E - 149) : Nat) : ℚ) := by exact_mod_cast hdpos
  have hdm := Nat.div_add_mod (num * 2 ^ (149 - E)) (den * 2 ^ (E - 149))
  have hml := Nat.mod_lt (num * 2 ^ (149 - E)) hdpos
  generalize hnn : num * 2 ^ (149 - E) = n at hnd hdm hml ⊢
  generalize hdd : den * 2 ^ (E - 149) = d at hnd hdm hml hdpos hdposq ⊢
  generalize hs0 : n / d = sig0 at hdm ⊢
  generalize hrm : n % d = rem at hdm hml ⊢
  have hnq : (n : ℚ) / (d : ℚ) = (sig0 : ℚ) + (rem : ℚ) / (d : ℚ) := by
    have : (n : ℚ) = (d : ℚ) * (sig0 : ℚ) + (rem : ℚ) := by exact_mod_cast hdm.symm
    rw [this]
    field_simp
    ring
  have hrem0 : (0 : ℚ) ≤ (rem : ℚ) / (d : ℚ) := by positivity
  have hrem1 : (rem : ℚ) / (d : ℚ) < 1 := by
    rw [div_lt_one hdposq]
    exact_mod_cast hml
  -- bounds on the scaled value
  have hlo : (2 : ℚ) ^ 23 ≤ (n : ℚ) / (d : ℚ) := by
    rw [hnd, hsplit, le_div_iff₀ (by positivity), le_div_iff₀ hdq]
    have : (2 : ℚ) ^ 23 * ((2 : ℚ) ^ E / 2 ^ 149) * (den : ℚ)
        = (2 : ℚ) ^ E * (den : ℚ) / 2 ^ 126 := by
      field_simp
      ring
    rw [this, div_le_iff₀ (by positivity)]
    exact hE3q
  have hhi : (n : ℚ) / (d : ℚ) < (2 : ℚ) ^ 24 := by
    rw [hnd, hsplit, div_lt_iff₀ (by positivity), div_lt_iff₀ hdq]
    have : (2 : ℚ) ^ 24 * ((2 : ℚ) ^ E / 2 ^ 149) * (den : ℚ)
        = (2 : ℚ) ^ (E + 1) * (den : ℚ) / 2 ^ 126 := by
      field_simp
      ring
    rw [this, lt_div_iff₀ (by positivity)]
    exact hE4q
  have hsig0 : sig0 < 2 ^ 24 := by
    have : (sig0 : ℚ) < (2 : ℚ) ^ 24 := by linarith
    exact_mod_cast this
  -- the rounded significand
  generalize hsg : (if d < 2 * rem ∨ 2 * rem = d ∧ sig0 % 2 = 1 then sig0 + 1 else sig0) = sig
  have hsgp : (sig = sig0 + 1 ∧ d ≤ 2 * rem) ∨ (sig = sig0 ∧ 2 * rem ≤ d) := by
    rw [← hsg]
    split_ifs with hc
    · left
      exact ⟨rfl, by rcases hc with hc | hc <;> omega⟩
    · right
      push_neg at hc
      exact ⟨rfl, by omega⟩
  have herr : |(n : ℚ) / (d : ℚ) - (sig : ℚ)| ≤ 1 / 2 := by
    rw [hnq, abs_le]
    rcases hsgp with ⟨h1, h2⟩ | ⟨h1, h2⟩
    · have h3 : (d : ℚ) ≤ 2 * (rem : ℚ) := by exact_mod_cast h2
      have h4 : (1 : ℚ) / 2 ≤ (rem : ℚ) / (d : ℚ) := by
        rw [le_div_iff₀ hdposq]
        linarith
      rw [h1]
      push_cast
      constructor <;> linarith
    · have h3 : 2 * (rem : ℚ) ≤ (d : ℚ) := by exact_mod_cast h2
      have h4 : (rem : ℚ) / (d : ℚ) ≤ 1 / 2 := by
        rw [div_le_iff₀ hdposq]
        linarith
      rw [h1]
      constructor <;> linarith
  have hv : (num : ℚ) / (den : ℚ) = (n : ℚ) / (d : ℚ) * (2 : ℚ) ^ ((E : Int) - 149) := by
    rw [hnd]
    field_simp
    ring
  refine ⟨sig, (E : Int) - 149, ?_, ?_, ?_, ?_⟩
  · push_cast
    rw [mul_div_assoc, two_pow_trunc_sub E 149]
    norm_num
  · have : 2 ^ 24 = 16777216 := by norm_num
    omega
  · rw [hv]
    exact mul_le_mul_of_nonneg_right hlo hu.le
  · rw [hv, ← sub_mul, abs_mul, abs_of_pos hu]
    calc |(n : ℚ) / (d : ℚ) - (sig : ℚ)| * (2 : ℚ) ^ ((E : Int) - 149)
        ≤ 1 / 2 * (2 : ℚ) ^ ((E : Int) - 149) := mul_le_mul_of_nonneg_right herr hu.le
      _ = (2 : ℚ) ^ ((E : Int) - 149) / 2 := by ring



/-- The rounded value is at least as close to the input as every value `m * 2^k` with
`m ≤ 2^24` (every binary32 value is of this form). -/
theorem f32_round_nearest (num den : Nat) (hd : 0 < den) (hn : den ≤ num * 2 ^ 126)
    (m : Nat) (k : Int) (hm : m ≤ 2 ^ 24) :
    |(num : ℚ) / (den : ℚ) - ((f32_round num den).1 : ℚ) / ((f32_round num den).2 : ℚ)|
      ≤ |(num : ℚ) / (den : ℚ) - (m : ℚ) * (2 : ℚ) ^ k| := by
  obtain ⟨sig, e, hval, hsig, hlo, herr⟩ := f32_round_spec num den hd hn
  rw [hval]
  generalize (num : ℚ) / (den : ℚ) = v at hlo herr ⊢
  have hu : (0 : ℚ) < (2 : ℚ) ^ e := by positivity
  -- nearest among the multiples of `2^e`
  have hint : ∀ M : Nat, |v - (sig : ℚ) * (2 : ℚ) ^ e| ≤ |v - (M : ℚ) * (2 : ℚ) ^ e| := by
    intro M
    by_cases hMs : M = sig
    · rw [hMs]
    · have h1 : (1 : ℚ) ≤ |(M : ℚ) - (sig : ℚ)| := by
        have h2 : (1 : Int) ≤ |(M : Int) - (sig : Int)| := by
          have : (M : Int) - (sig : Int) ≠ 0 := by omega
          exact Int.one_le_abs this
        have h3 : ((|(M : Int) - (sig : Int)| : Int) : ℚ) = |(M : ℚ) - (sig : ℚ)| := by
          push_cast
          rfl
        rw [← h3]
        exact_mod_cast h2
      have h4 : (2 : ℚ) ^ e ≤ |(M : ℚ) * (2 : ℚ) ^ e - (sig : ℚ) * (2 : ℚ) ^ e| := by
        rw [← sub_mul, abs_mul, abs_of_pos hu]
        calc (2 : ℚ) ^ e = 1 * (2 : ℚ) ^ e := by ring
          _ ≤ |(M : ℚ) - (sig : ℚ)| * (2 : ℚ) ^ e := mul_le_mul_of_nonneg_right h1 hu.le
      have h5 : |(M : ℚ) * (2 : ℚ) ^ e - (sig : ℚ) * (2 : ℚ) ^ e|
          ≤ |v - (sig : ℚ) * (2 : ℚ) ^ e| + |v - (M : ℚ) * (2 : ℚ) ^ e| := by
        have := abs_sub_le ((M : ℚ) * (2 : ℚ) ^ e) v ((sig : ℚ) * (2 : ℚ) ^ e)
        rw [abs_sub_comm ((M : ℚ) * (2 : ℚ) ^ e) v] at this
        linarith
      linarith
  rcases le_or_lt e k with hk | hk
  · -- `m * 2^k` is a multiple of `2^e`
    obtain ⟨c, hc⟩ := Int.eq_ofNat_of_zero_le (sub_nonneg.mpr hk)
    have hk2 : k = e + (c : Int) := by omega
    have h1 : (m : ℚ) * (2 : ℚ) ^ k = ((m * 2 ^ c : Nat) : ℚ) * (2 : ℚ) ^ e := by
      rw [hk2, zpow_add₀ (by norm_num), zpow_natCast]
      push_cast
      ring
    rw [h1]
    exact hint (m * 2 ^ c)
  · -- `m * 2^k` is below `2^23 * 2^e`, itself a multiple of `2^e`
    have h1 : (2 : ℚ) ^ k ≤ (2 : ℚ) ^ (e - 1) := zpow_le_zpow_right₀ (by norm_num) (by omega)
    have h2 : (2 : ℚ) ^ (e - 1) = (2 : ℚ) ^ e / 2 := by
      rw [zpow_sub₀ (by norm_num)]
      norm_num
    have h3 : (m : ℚ) ≤ (2 : ℚ) ^ 24 := by exact_mod_cast hm
    have h4 : (m : ℚ) * (2 : ℚ) ^ k ≤ (2 : ℚ) ^ 23 * (2 : ℚ) ^ e := by
      calc (m : ℚ) * (2 : ℚ) ^ k ≤ (2 : ℚ) ^ 24 * ((2 : ℚ) ^ e / 2) := by
            apply mul_le_mul h3 (h1.trans h2.le) (by positivity) (by positivity)
        _ = (2 : ℚ) ^ 23 * (2 : ℚ) ^ e := by ring
    have h5 := hint 8388608
    rw [show ((8388608 : Nat) : ℚ) = (2 : ℚ) ^ 23 by norm_num] at h5
    rw [abs_of_nonneg (sub_nonneg.mpr hlo)] at h5
    rw [abs_of_nonneg (sub_nonneg.mpr (h4.trans hlo))]
    linarith

/-- A binary32 value above the input is above the rounded input. -/
theorem f32_round_le (num den : Nat) (hd : 0 < den) (hn : den ≤ num * 2 ^ 126)
    (m : Nat) (k : Int) (hm : m ≤ 2 ^ 24) (h : (num : ℚ) / (den : ℚ) ≤ (m : ℚ) * (2 : ℚ) ^ k) :
    ((f32_round num den).1 : ℚ) / ((f32_round num den).2 : ℚ) ≤ (m : ℚ) * (2 : ℚ) ^ k := by
  have h1 := f32_round_nearest num den hd hn m k hm
  rw [abs_of_nonpos (sub_nonpos.mpr h)] at h1
  have h2 := neg_abs_le ((num : ℚ) / (den : ℚ)
    - ((f32_round num den).1 : ℚ) / ((f32_round num den).2 : ℚ))
  linarith

/-- A binary32 value below the input is below the rounded input. -/
theorem f32_round_ge (num den : Nat) (hd : 0 < den) (hn : den ≤ num * 2 ^ 126)
    (m : Nat) (k : Int) (hm : m ≤ 2 ^ 24) (h : (m : ℚ) * (2 : ℚ) ^ k ≤ (num : ℚ) / (den : ℚ)) :
    (m : ℚ) * (2 : ℚ) ^ k ≤ ((f32_round num den).1 : ℚ) / ((f32_round num den).2 : ℚ) := by
  have h1 := f32_round_nearest num den hd hn m k hm
  rw [abs_of_nonneg (sub_nonneg.mpr h)] at h1
  have h2 := le_abs_self ((num : ℚ) / (den : ℚ)
    - ((f32_round num den).1 : ℚ) / ((f32_round num den).2 : ℚ))
  linarith



theorem f32_normal_of_ge (num den : Nat) (hd : 0 < den)
    (h : (2 : ℚ) ^ (-126 : Int) ≤ (num : ℚ) / (den : ℚ)) : den ≤ num * 2 ^ 126 := by
  have hdq : (0 : ℚ) < (den : ℚ) := by exact_mod_cast hd
  rw [le_div_iff₀ hdq, zpow_neg, inv_mul_le_iff₀ (by positivity)] at h
  have h2 : (den : ℚ) ≤ ((num * 2 ^ 126 : Nat) : ℚ) := by
    push_cast
    linarith
  exact_mod_cast h2

/-- Rounding keeps a value between two binary32 values between them. -/
theorem f32_round_between (num den : Nat) (hd : 0 < den) (m1 m2 : Nat) (k1 k2 : Int)
    (hm1 : 1 ≤ m1) (hm1' : m1 ≤ 2 ^ 24) (hk1 : -126 ≤ k1) (hm2 : m2 ≤ 2 ^ 24)
    (hlo : (m1 : ℚ) * (2 : ℚ) ^ k1 ≤ (num : ℚ) / (den : ℚ))
    (hhi : (num : ℚ) / (den : ℚ) ≤ (m2 : ℚ) * (2 : ℚ) ^ k2) :
    (m1 : ℚ) * (2 : ℚ) ^ k1 ≤ ((f32_round num den).1 : ℚ) / ((f32_round num den).2 : ℚ) ∧
    ((f32_round num den).1 : ℚ) / ((f32_round num den).2 : ℚ) ≤ (m2 : ℚ) * (2 : ℚ) ^ k2 := by
  have h1 : (2 : ℚ) ^ (-126 : Int) ≤ (m1 : ℚ) * (2 : ℚ) ^ k1 := by
    have h2 : (2 : ℚ) ^ (-126 : Int) ≤ (2 : ℚ) ^ k1 := zpow_le_zpow_right₀ (by norm_num) hk1
    have h3 : (1 : ℚ) ≤ (m1 : ℚ) := by exact_mod_cast hm1
    calc (2 : ℚ) ^ (-126 : Int) ≤ (2 : ℚ) ^ k1 := h2
      _ = 1 * (2 : ℚ) ^ k1 := by ring
      _ ≤ (m1 : ℚ) * (2 : ℚ) ^ k1 := mul_le_mul_of_nonneg_right h3 (by positivity)
  have hn := f32_normal_of_ge num den hd (h1.trans hlo)
  exact ⟨f32_round_ge num den hd hn m1 k1 hm1' hlo, f32_round_le num den hd hn m2 k2 hm2 hhi⟩

/-- Conversion of natural numbers to binary32 is monotone. -/
theorem f32_round_nat_mono {x y : Nat} (hx : 1 ≤ x) (hxy : x ≤ y) :
    ((f32_round x 1).1 : ℚ) / ((f32_round x 1).2 : ℚ)
      ≤ ((f32_round y 1).1 : ℚ) / ((f32_round y 1).2 : ℚ) := by
  rcases Nat.eq_or_lt_of_le hxy with h | h
  · rw [h]
  · have hnx : 1 ≤ x * 2 ^ 126 := Nat.one_le_iff_ne_zero.mpr (by positivity)
    have hny : 1 ≤ y * 2 ^ 126 := by
      have : 0 < y := by omega
      exact Nat.one_le_iff_ne_zero.mpr (by positivity)
    obtain ⟨sx, ex, hvx, hsx, _, _⟩ := f32_round_spec x 1 Nat.one_pos hnx
    obtain ⟨sy, ey, hvy, hsy, _, _⟩ := f32_round_spec y 1 Nat.one_pos hny
    have h1 := f32_round_nearest x 1 Nat.one_pos hnx sy ey hsy
    have h2 := f32_round_nearest y 1 Nat.one_pos hny sx ex hsx
    rw [← hvy] at h1
    rw [← hvx] at h2
    have hq : (x : ℚ) < (y : ℚ) := by exact_mod_cast h
    simp only [Nat.cast_one, div_one] at h1 h2
    generalize ((f32_round x 1).1 : ℚ) / ((f32_round x 1).2 : ℚ) = rx at h1 h2 ⊢
    generalize ((f32_round y 1).1 : ℚ) / ((f32_round y 1).2 : ℚ) = ry at h1 h2 ⊢
    by_contra hc
    push_neg at hc
    rcases abs_cases ((x : ℚ) - rx) with ⟨a1, _⟩ | ⟨a1, _⟩ <;>
    rcases abs_cases ((x : ℚ) - ry) with ⟨a2, _⟩ | ⟨a2, _⟩ <;>
    rcases abs_cases ((y : ℚ) - ry) with ⟨a3, _⟩ | ⟨a3, _⟩ <;>
    rcases abs_cases ((y : ℚ) - rx) with ⟨a4, _⟩ | ⟨a4, _⟩ <;>
    rw [a1, a2] at h1 <;> rw [a3, a4] at h2 <;> linarith

theorem frac_le_nat_of {a b n : Nat} (hb : 0 < b) (h : (a : ℚ) / (b : ℚ) ≤ (n : ℚ)) :
    a / b ≤ n := by
  have hbq : (0 : ℚ) < (b : ℚ) := by exact_mod_cast hb
  rw [div_le_iff₀ hbq] at h
  have h2 : a ≤ n * b := by exact_mod_cast h
  exact Nat.div_le_of_le_mul (by rw [Nat.mul_comm]; exact h2)

theorem num_pos_of_val_pos {a b : Nat} (h : (0 : ℚ) < (a : ℚ) / (b : ℚ)) : 0 < a := by
  rcases Nat.eq_zero_or_pos a with h0 | h0
  · rw [h0] at h
    simp at h
  · exact h0

/-- The interpolated estimate stays in range: for `1 ≤ dx ≤ dy < 2^31` and
`1 ≤ n ≤ 2^24`, the statement `i *= (float) dx / dy` takes `i = n` to a value `≤ n`. -/
theorem interpolate_le (n : Nat) (dx dy : Int) (h1 : 1 ≤ dx) (h2 : dx ≤ dy)
    (h3 : dy < 2147483648) (hn1 : 1 ≤ n) (hn : n ≤ 16777216) :
    ∃ t, interpolate n dx dy = some t ∧ t ≤ n := by
  obtain ⟨x, hx⟩ := Int.eq_ofNat_of_zero_le (show 0 ≤ dx by omega)
  obtain ⟨y, hy⟩ := Int.eq_ofNat_of_zero_le (show 0 ≤ dy by omega)
  subst hx hy
  have hx1 : 1 ≤ x := by omega
  have hxy : x ≤ y := by omega
  have hy31 : y ≤ 2147483648 := by omega
  unfold interpolate
  simp only [Int.natAbs_ofNat]
  have dxn : ¬ ((x : Int) < 0) := by omega
  have dyn : ¬ ((y : Int) < 0) := by omega
  simp only [dxn, dyn, decide_False, ne_eq, not_true_eq_false, if_false]
  -- the two converted differences
  have hxb := f32_round_between x 1 Nat.one_pos 1 1 0 31 le_rfl (by norm_num) (by norm_num)
    (by norm_num) (by simpa using hx1) (by norm_num; omega)
  have hyb := f32_round_between y 1 Nat.one_pos 1 1 0 31 le_rfl (by norm_num) (by norm_num)
    (by norm_num) (by simpa using hx1.trans hxy) (by norm_num; omega)
  have hmono := f32_round_nat_mono hx1 hxy
  have hx2 := f32_round_snd_pos x 1
  have hy2 := f32_round_snd_pos y 1
  generalize f32_round x 1 = fx at hxb hmono hx2 ⊢
  generalize f32_round y 1 = fy at hyb hmono hy2 ⊢
  norm_num at hxb hyb
  have hx2q : (0 : ℚ) < (fx.2 : ℚ) := by exact_mod_cast hx2
  have hy2q : (0 : ℚ) < (fy.2 : ℚ) := by exact_mod_cast hy2
  have hx1p : 0 < fx.1 := num_pos_of_val_pos (lt_of_lt_of_le one_pos hxb.1)
  have hy1p : 0 < fy.1 := num_pos_of_val_pos (lt_of_lt_of_le one_pos hyb.1)
  have hx1q : (0 : ℚ) < (fx.1 : ℚ) := by exact_mod_cast hx1p
  have hy1q : (0 : ℚ) < (fy.1 : ℚ) := by exact_mod_cast hy1p
  have hrx : (0 : ℚ) < (fx.1 : ℚ) / (fx.2 : ℚ) := by positivity
  have hry : (0 : ℚ) < (fy.1 : ℚ) / (fy.2 : ℚ) := by positivity
  -- the quotient
  have hqv : ((fx.1 * fy.2 : Nat) : ℚ) / ((fx.2 * fy.1 : Nat) : ℚ)
      = ((fx.1 : ℚ) / (fx.2 : ℚ)) / ((fy.1 : ℚ) / (fy.2 : ℚ)) := by
    push_cast
    field_simp
  have hqlo : ((1 : Nat) : ℚ) * (2 : ℚ) ^ (-31 : Int)
      ≤ ((fx.1 * fy.2 : Nat) : ℚ) / ((fx.2 * fy.1 : Nat) : ℚ) := by
    rw [hqv, le_div_iff₀ hry, Nat.cast_one, one_mul]
    calc (2 : ℚ) ^ (-31 : Int) * ((fy.1 : ℚ) / (fy.2 : ℚ))
        ≤ (2 : ℚ) ^ (-31 : Int) * 2147483648 :=
          mul_le_mul_of_nonneg_left hyb.2 (by positivity)
      _ = 1 := by norm_num
      _ ≤ (fx.1 : ℚ) / (fx.2 : ℚ) := hxb.1
  have hqhi : ((fx.1 * fy.2 : Nat) : ℚ) / ((fx.2 * fy.1 : Nat) : ℚ)
      ≤ ((1 : Nat) : ℚ) * (2 : ℚ) ^ (0 : Int) := by
    rw [hqv, div_le_iff₀ hry, Nat.cast_one, zpow_zero, one_mul, one_mul]
    exact hmono
  have hqb := f32_round_between (fx.1 * fy.2) (fx.2 * fy.1) (Nat.mul_pos hx2 hy1p) 1 1 (-31) 0
    le_rfl (by norm_num) (by norm_num) (by norm_num) hqlo hqhi
  have hq2 := f32_round_snd_pos (fx.1 * fy.2) (fx.2 * fy.1)
  generalize f32_round (fx.1 * fy.2) (fx.2 * fy.1) = q at hqb hq2 ⊢
  simp only [Nat.cast_one, one_mul, zpow_zero] at hqb
  have hq2q : (0 : ℚ) < (q.2 : ℚ) := by exact_mod_cast hq2
  -- the converted index
  have hn24 : n ≤ 2 ^ 24 := by norm_num; exact hn
  have hib := f32_round_between n 1 Nat.one_pos n n 0 0 hn1 hn24 (by norm_num) hn24
    (by norm_num) (by norm_num)
  have hi2 := f32_round_snd_pos n 1
  generalize f32_round n 1 = fi at hib hi2 ⊢
  simp only [zpow_zero, mul_one] at hib
  have hiv : (fi.1 : ℚ) / (fi.2 : ℚ) = (n : ℚ) := le_antisymm hib.2 hib.1
  have hi2q : (0 : ℚ) < (fi.2 : ℚ) := by exact_mod_cast hi2
  have hnq : (1 : ℚ) ≤ (n : ℚ) := by exact_mod_cast hn1
  -- the product
  have hpv : ((fi.1 * q.1 : Nat) : ℚ) / ((fi.2 * q.2 : Nat) : ℚ)
      = (n : ℚ) * ((q.1 : ℚ) / (q.2 : ℚ)) := by
    rw [← hiv]
    push_cast
    field_simp
  have hr0 : (0 : ℚ) ≤ (q.1 : ℚ) / (q.2 : ℚ) := le_trans (by positivity) hqb.1
  have hplo : ((1 : Nat) : ℚ) * (2 : ℚ) ^ (-31 : Int)
      ≤ ((fi.1 * q.1 : Nat) : ℚ) / ((fi.2 * q.2 : Nat) : ℚ) := by
    rw [hpv, Nat.cast_one, one_mul]
    calc (2 : ℚ) ^ (-31 : Int) ≤ (q.1 : ℚ) / (q.2 : ℚ) := hqb.1
      _ = 1 * ((q.1 : ℚ) / (q.2 : ℚ)) := (one_mul _).symm
      _ ≤ (n : ℚ) * ((q.1 : ℚ) / (q.2 : ℚ)) := mul_le_mul_of_nonneg_right hnq hr0
  have hphi : ((fi.1 * q.1 : Nat) : ℚ) / ((fi.2 * q.2 : Nat) : ℚ)
      ≤ ((n : Nat) : ℚ) * (2 : ℚ) ^ (0 : Int) := by
    rw [hpv, zpow_zero]
    exact mul_le_mul_of_nonneg_left hqb.2 (by positivity)
  have hpb := f32_round_between (fi.1 * q.1) (fi.2 * q.2) (Nat.mul_pos hi2 hq2) 1 n (-31) 0
    le_rfl (by norm_num) (by norm_num) hn24 hplo hphi
  have hp2 := f32_round_snd_pos (fi.1 * q.1) (fi.2 * q.2)
  generalize f32_round (fi.1 * q.1) (fi.2 * q.2) = p at hpb hp2 ⊢
  simp only [zpow_zero, mul_one] at hpb
  have ht : p.1 / p.2 ≤ n := frac_le_nat_of hp2 hpb.2
  exact ⟨p.1 / p.2, by rw [if_pos (by omega)], ht⟩

/-! ## The loops of the interpolated search -/

theorem two_pow_succ_le {k : Nat} (h : 2 ^ k < 2147483648) : k + 1 ≤ 31 := by
  by_contra hc
  have h1 : 2 ^ 31 ≤ 2 ^ k := Nat.pow_le_pow_right (by norm_num) (by omega)
  have h2 : (2 : Nat) ^ 31 = 2147483648 := by norm_num
  omega

/-- The doubling probe to the right, started at an index `i` holding a value `≤ key` with
a power of two as step, ends on a window `[i', i' + mid')` inside the array whose first
value is `≤ key`; on a sorted array every value from the end of the window on is above
`key`. -/
theorem ascend_loop_spec (A : List Int) (key : Int) (hlen : A.length < 2147483648) :
    ∀ (fuel i mid : Nat) (checks : Int), i < A.length → (∃ k, k ≤ 31 ∧ mid = 2 ^ k) →
      A.getD i 0 ≤ key → A.length < fuel + i →
      ∃ i' mid' n : Nat, ascend_loop A (A.length : Int) key fuel i mid checks
          = some (i', mid', checks + (n : Int)) ∧
        i ≤ i' ∧ 1 ≤ mid' ∧ i' + mid' ≤ A.length ∧ A.getD i' 0 ≤ key ∧
        (A.Sorted (· ≤ ·) → ∀ j, i' + mid' ≤ j → j < A.length → key < A.getD j 0) := by
  intro fuel
  induction fuel with
  | zero => intro i mid checks h1 _ _ h4; omega
  | succ fuel ih =>
    intro i mid checks h1 h2 h3 h4
    obtain ⟨k, hk, hmid⟩ := h2
    have hmid1 : 1 ≤ mid := by rw [hmid]; exact Nat.one_le_two_pow
    have hmid2 : mid ≤ 2147483648 := by
      rw [hmid]
      calc 2 ^ k ≤ 2 ^ 31 := Nat.pow_le_pow_right (by norm_num) hk
        _ = 2147483648 := by norm_num
    unfold ascend_loop
    rw [toU32_natCast (by omega), u32_of_lt (by omega)]
    by_cases hc : i + mid ≥ A.length
    · rw [if_pos hc, usub_of_le (by omega) (by omega)]
      exact ⟨i, A.length - i, 0, by simp, le_refl _, by omega, by omega, h3,
        fun _ j hj1 hj2 => by omega⟩
    · rw [if_neg hc]
      have hidx : i + mid < A.length := by omega
      rw [getElem?_eq_getD A hidx]
      simp only []
      by_cases hv : key ≥ A.getD (i + mid) 0
      · rw [if_pos hv]
        have hk2 : k + 1 ≤ 31 := two_pow_succ_le (by rw [← hmid]; omega)
        have hm2 : mid * 2 = 2 ^ (k + 1) := by rw [hmid, pow_succ]
        rw [u32_of_lt (by omega : mid * 2 < 4294967296)]
        obtain ⟨i', mid', n, hr, r1, r2, r3, r4, r5⟩ :=
          ih (i + mid) (mid * 2) (checks + 1) hidx ⟨k + 1, hk2, hm2⟩ hv (by omega)
        refine ⟨i', mid', n + 1, ?_, by omega, r2, r3, r4, r5⟩
        rw [hr]; push_cast; ring_nf
      · rw [if_neg hv]
        refine ⟨i, mid, 1, by simp, le_refl _, hmid1, by omega, h3, ?_⟩
        intro hs j hj1 hj2
        exact lt_of_lt_of_le (lt_of_not_ge hv) (sorted_getD hs hj1 hj2)

/-- The doubling probe to the left, started at an index `i` holding a value `≥ key` with a
power of two as step, when `array[0] < key`: it ends at an index `i'` holding a value
`≥ key` with a step `1 ≤ mid' ≤ i'`; on a sorted array every value at distance `mid'` or
more to the left of `i'` is below `key`. -/
theorem descend_loop_spec (A : List Int) (key : Int) (hlen : A.length < 2147483648)
    (h0 : A.getD 0 0 < key) :
    ∀ (fuel i mid : Nat) (checks : Int), i < A.length → (∃ k, k ≤ 31 ∧ mid = 2 ^ k) →
      key ≤ A.getD i 0 → i < fuel →
      ∃ i' mid' n : Nat, descend_loop A key fuel i mid checks
          = some (i', mid', checks + (n : Int)) ∧
        i' ≤ i ∧ 1 ≤ mid' ∧ mid' ≤ i' ∧ key ≤ A.getD i' 0 ∧
        (A.Sorted (· ≤ ·) → ∀ j, j + mid' ≤ i' → A.getD j 0 < key) := by
  intro fuel
  induction fuel with
  | zero => intro i mid checks _ _ _ h4; omega
  | succ fuel ih =>
    intro i mid checks h1 h2 h3 h4
    obtain ⟨k, hk, hmid⟩ := h2
    have hmid1 : 1 ≤ mid := by rw [hmid]; exact Nat.one_le_two_pow
    have hi0 : i ≠ 0 := by
      intro h
      rw [h] at h3
      omega
    unfold descend_loop
    by_cases hc : i < mid
    · rw [if_pos hc]
      refine ⟨i, i, 0, by simp, le_refl _, by omega, le_refl _, h3, ?_⟩
      intro _ j hj
      have : j = 0 := by omega
      rw [this]
      exact h0
    · rw [if_neg hc]
      have hidx : i - mid < A.length := by omega
      rw [usub_of_le (by omega) (by omega), getElem?_eq_getD A hidx]
      simp only []
      by_cases hv : key ≤ A.getD (i - mid) 0
      · rw [if_pos hv]
        have hk2 : k + 1 ≤ 31 := two_pow_succ_le (by rw [← hmid]; omega)
        have hm2 : mid * 2 = 2 ^ (k + 1) := by rw [hmid, pow_succ]
        rw [u32_of_lt (by omega : mid * 2 < 4294967296)]
        obtain ⟨i', mid', n, hr, r1, r2, r3, r4, r5⟩ :=
          ih (i - mid) (mid * 2) (checks + 1) hidx ⟨k + 1, hk2, hm2⟩ hv (by omega)
        refine ⟨i', mid', n + 1, ?_, by omega, r2, r3, r4, r5⟩
        rw [hr]; push_cast; ring_nf
      · rw [if_neg hv]
        refine ⟨i, mid, 1, by simp, le_refl _, hmid1, by omega, h3, ?_⟩
        intro hs j hj
        exact lt_of_le_of_lt (sorted_getD hs (show j ≤ i - mid by omega) hidx) (lt_of_not_ge hv)

/-- The loop `while (top > 1)` of the descending branch, started on the window
`(i - top, i]` inside the array, ends after exactly `⌈log₂ top⌉` probes at an index `f` of
the window; the index has moved only onto values `≥ key`, and on a sorted array every
earlier index holds a value below `key` if that was so up to the start of the window. -/
theorem monobound_down_loop_spec (A : List Int) (key : Int) (hlen : A.length < 2147483648) :
    ∀ (fuel i top : Nat) (checks : Int), 1 ≤ top → top ≤ i → i < A.length → top ≤ fuel →
      ∃ f, monobound_down_loop A key fuel i top checks
          = some (f, checks + (Nat.clog 2 top : Int)) ∧
        f ≤ i ∧ i < f + top ∧ (f = i ∨ key ≤ A.getD f 0) ∧
        (A.Sorted (· ≤ ·) → (∀ j, j + top ≤ i → A.getD j 0 < key) →
          ∀ j, j < f → A.getD j 0 < key) := by
  intro fuel
  induction fuel with
  | zero => intro i top checks h1 _ _ h4; omega
  | succ fuel ih =>
    intro i top checks h1 h2 h3 h4
    unfold monobound_down_loop
    by_cases ht : top > 1
    · have hidx : i - top / 2 < A.length := by omega
      simp only [ht, if_true]
      rw [usub_of_le (by omega) (by omega), getElem?_eq_getD A hidx,
        usub_of_le (by omega) (by omega)]
      simp only []
      have hclog := clog_two_step ht
      by_cases hk : key ≤ A.getD (i - top / 2) 0
      · rw [if_pos hk]
        obtain ⟨f, hf, r1, r2, r3, r4⟩ :=
          ih (i - top / 2) (top - top / 2) (checks + 1) (by omega) (by omega) (by omega)
            (by omega)
        refine ⟨f, ?_, by omega, by omega, ?_, ?_⟩
        · rw [hf, hclog]; push_cast; ring_nf
        · right
          rcases r3 with r3 | r3
          · rw [r3]; exact hk
          · exact r3
        · intro hs hdn
          apply r4 hs
          intro j hj
          exact hdn j (by omega)
      · rw [if_neg hk]
        obtain ⟨f, hf, r1, r2, r3, r4⟩ :=
          ih i (top - top / 2) (checks + 1) (by omega) (by omega) h3 (by omega)
        refine ⟨f, ?_, r1, by omega, r3, ?_⟩
        · rw [hf, hclog]; push_cast; ring_nf
        · intro hs hdn
          apply r4 hs
          intro j hj
          exact lt_of_le_of_lt (sorted_getD hs (show j ≤ i - top / 2 by omega) hidx)
            (lt_of_not_ge hk)
    · have ht1 : top = 1 := by omega
      subst ht1
      refine ⟨i, by simp, le_refl _, by omega, Or.inl rfl, ?_⟩
      intro _ hdn j hj
      exact hdn j (by omega)

/-- The code of `monobound_interpolated_search` after the estimate, entered with any
index `e` of a sorted array with `array[0] < key`: it returns the outcome of the final
check at an index `f`, which in the ascending branch (`array[e] ≤ key`) is the last index
holding a value `≤ key` and in the descending branch (`key < array[e]`) is the first index
holding a value `≥ key`. -/
theorem interpolated_from_spec (A : List Int) (key checks : Int) (e : Nat)
    (hlen : A.length < 2147483648) (hs : A.Sorted (· ≤ ·)) (h0 : A.getD 0 0 < key)
    (he : e < A.length) :
    ∃ f n : Nat, interpolated_from A (A.length : Int) key e checks
        = some (if key = A.getD f 0 then (f : Int) else -1, checks + (n : Int)) ∧
      f < A.length ∧
      ((A.getD e 0 ≤ key ∧ A.getD f 0 ≤ key ∧ ∀ j, f < j → j < A.length → key < A.getD j 0) ∨
       (key < A.getD e 0 ∧ key ≤ A.getD f 0 ∧ ∀ j, j < f → A.getD j 0 < key)) := by
  unfold interpolated_from
  rw [getElem?_eq_getD A he]
  simp only []
  by_cases hv : key ≥ A.getD e 0
  · rw [if_pos hv, toU32_natCast (by omega)]
    obtain ⟨i, mid, n, hr, r1, r2, r3, r4, r5⟩ :=
      ascend_loop_spec A key hlen (A.length + 1) e 64 (checks + 1) he ⟨6, by norm_num, by norm_num⟩
        hv (by omega)
    obtain ⟨f, hf, m1, m2, m3, m4⟩ :=
      monobound_loop_spec A key hlen (mid + 1) i mid (checks + 1 + (n : Int)) r2 r3 (by omega)
    have hfl : f < A.length := by omega
    refine ⟨f, 1 + n + Nat.clog 2 mid + 1, ?_, hfl, Or.inl ⟨hv, ?_, m4 hs (r5 hs)⟩⟩
    · rw [hr]
      simp only []
      rw [hf]
      simp only []
      rw [final_check_eq A key _ hfl hlen]
      push_cast
      ring_nf
    · rcases m3 with m3 | m3
      · rw [m3]; exact r4
      · exact m3
  · rw [if_neg hv]
    have hv2 : key ≤ A.getD e 0 := le_of_lt (lt_of_not_ge hv)
    obtain ⟨i, mid, n, hr, r1, r2, r3, r4, r5⟩ :=
      descend_loop_spec A key hlen h0 (e + 1) e 64 (checks + 1) he ⟨6, by norm_num, by norm_num⟩
        hv2 (by omega)
    obtain ⟨f, hf, m1, m2, m3, m4⟩ :=
      monobound_down_loop_spec A key hlen (mid + 1) i mid (checks + 1 + (n : Int)) r2 r3
        (by omega) (by omega)
    have hfl : f < A.length := by omega
    refine ⟨f, 1 + n + Nat.clog 2 mid + 1, ?_, hfl, Or.inr ⟨lt_of_not_ge hv, ?_, m4 hs (r5 hs)⟩⟩
    · rw [hr]
      simp only []
      rw [hf]
      simp only []
      rw [final_check_eq A key _ hfl hlen]
      push_cast
      ring_nf
    · rcases m3 with m3 | m3
      · rw [m3]; exact r4
      · exact m3

/-- On a sorted array, an index `f` holding a value `≥ key` before which every value is
below `key` holds `key` exactly when `key` occurs in the array. -/
theorem mem_iff_getD_first {A : List Int} {key : Int} (hs : A.Sorted (· ≤ ·)) {f : Nat}
    (hf : f < A.length) (hlo : key ≤ A.getD f 0) (hdn : ∀ j, j < f → A.getD j 0 < key) :
    key ∈ A ↔ A.getD f 0 = key := by
  constructor
  · intro h
    obtain ⟨j, hj, hjk⟩ := mem_iff_getD.mp h
    have hfj : f ≤ j := by
      by_contra hc
      have := hdn j (by omega)
      omega
    have h4 := sorted_getD hs hfj hj
    omega
  · intro h
    exact mem_iff_getD.mpr ⟨f, hf, h⟩

/-- The value returned by the code after the estimate meets the search contract. -/
theorem interpolated_from_correct (A : List Int) (key checks : Int) (e : Nat)
    (hlen : A.length < 2147483648) (hs : A.Sorted (· ≤ ·)) (h0 : A.getD 0 0 < key)
    (he : e < A.length) :
    ∃ r c : Int, interpolated_from A (A.length : Int) key e checks = some (r, c) ∧
      (key ∈ A → 0 ≤ r ∧ r < A.length ∧ A[r.toNat]? = some key) ∧ (key ∉ A → r = -1) := by
  obtain ⟨f, n, hr, hf, h⟩ := interpolated_from_spec A key checks e hlen hs h0 he
  refine ⟨_, _, hr, ?_⟩
  have hiff : key ∈ A ↔ A.getD f 0 = key := by
    rcases h with ⟨_, h1, h2⟩ | ⟨_, h1, h2⟩
    · exact mem_iff_getD_final hs hf (Or.inr h1) h2
    · exact mem_iff_getD_first hs hf h1 h2
  constructor
  · intro hmem
    have h1 := hiff.mp hmem
    rw [if_pos h1.symm]
    refine ⟨by omega, by omega, ?_⟩
    rw [Int.toNat_ofNat, getElem?_eq_getD A hf, h1]
  · intro hmem
    have h1 : ¬ key = A.getD f 0 := fun h => hmem (hiff.mpr h.symm)
    rw [if_neg h1]

/-- Within the range where the estimate is computed exactly enough, the interpolated
search finds every key that occurs: on a sorted array of length `1 ≤ N ≤ 2^24 + 1` whose
values differ by less than `2^31`, entered with a non-negative counter,
`monobound_interpolated_search` returns an index holding `key` for every `key` in the
array. -/
theorem monobound_interpolated_search_found (A : List Int) (key checks : Int)
    (hN : 1 ≤ A.length) (hN24 : A.length ≤ 16777217) (hs : A.Sorted (· ≤ ·))
    (hrange : ∀ x ∈ A, ∀ y ∈ A, y - x < 2147483648) (hc : 0 ≤ checks) (hk : key ∈ A) :
    ∃ r c : Int, monobound_interpolated_search A (A.length : Int) key checks = some (r, c) ∧
      0 ≤ r ∧ r < A.length ∧ A[r.toNat]? = some key := by
  have hlen : A.length < 2147483648 := by omega
  have h0mem : A.getD 0 0 ∈ A := mem_iff_getD.mpr ⟨0, by omega, rfl⟩
  have hlmem : A.getD (A.length - 1) 0 ∈ A := mem_iff_getD.mpr ⟨A.length - 1, by omega, rfl⟩
  obtain ⟨p, hp, hpk⟩ := mem_iff_getD.mp hk
  have hmin : A.getD 0 0 ≤ key := by
    rw [← hpk]; exact sorted_getD hs (Nat.zero_le p) hp
  have hmax : key ≤ A.getD (A.length - 1) 0 := by
    rw [← hpk]; exact sorted_getD hs (by omega) (by omega)
  unfold monobound_interpolated_search
  rw [getElem?_eq_getD A (by omega : 0 < A.length)]
  simp only []
  by_cases hg : key ≤ A.getD 0 0 ∨ ((A.length : Int) ≤ 1)
  · rw [if_pos hg]
    have hkey : A.getD 0 0 = key := by
      rcases hg with hg | hg
      · omega
      · have : p = 0 := by omega
        rw [← hpk, this]
    refine ⟨_, _, rfl, ?_⟩
    rw [if_pos ⟨by omega, hkey⟩]
    refine ⟨le_refl _, by omega, ?_⟩
    rw [← hkey]
    exact getElem?_eq_getD A (by omega : 0 < A.length)
  · rw [if_neg hg]
    push_neg at hg
    have hN2 : 2 ≤ A.length := by omega
    have hi : toU32 ((A.length : Int) - 1) = A.length - 1 := by
      have : ((A.length : Int) - 1) = ((A.length - 1 : Nat) : Int) := by omega
      rw [this, toU32_natCast (by omega)]
    rw [hi, getElem?_eq_getD A (by omega : A.length - 1 < A.length)]
    simp only []
    by_cases hm : A.getD (A.length - 1) 0 ≠ A.getD 0 0
    · rw [if_pos hm]
      have hr1 := hrange _ h0mem _ hk
      have hr2 := hrange _ h0mem _ hlmem
      have hsx : sub_i32 key (A.getD 0 0) = some (key - A.getD 0 0) := by
        unfold sub_i32
        rw [if_pos ⟨by omega, hr1⟩]
      have hsy : sub_i32 (A.getD (A.length - 1) 0) (A.getD 0 0)
          = some (A.getD (A.length - 1) 0 - A.getD 0 0) := by
        unfold sub_i32
        rw [if_pos ⟨by omega, hr2⟩]
      rw [hsx, hsy]
      simp only []
      obtain ⟨t, ht, htn⟩ := interpolate_le (A.length - 1) (key - A.getD 0 0)
        (A.getD (A.length - 1) 0 - A.getD 0 0) (by omega) (by omega) hr2 (by omega) (by omega)
      rw [ht]
      simp only []
      obtain ⟨r, c, hr, h1, _⟩ := interpolated_from_correct A key (checks + 1) t hlen hs hg.1
        (by omega)
      exact ⟨r, c, hr, h1 hk⟩
    · rw [if_neg hm]
      obtain ⟨r, c, hr, h1, _⟩ := interpolated_from_correct A key (checks + 1) (A.length - 1)
        hlen hs hg.1 (by omega)
      exact ⟨r, c, hr, h1 hk⟩

/-! ## The claims on the interpolated search -/

theorem sample_reads :
    (List.replicate 16777219 (0 : Int) ++ [1])[0]? = some 0 ∧
    (List.replicate 16777219 (0 : Int) ++ [1])[16777219]? = some 1 ∧
    (List.replicate 16777219 (0 : Int) ++ [1])[16777220]? = none := by
  refine ⟨?_, ?_, ?_⟩
  · rw [List.getElem?_append_left (by rw [List.length_replicate]; norm_num)]
    rw [List.getElem?_replicate]
    norm_num
  · rw [List.getElem?_append_right (by rw [List.length_replicate])]
    rw [List.length_replicate]
    norm_num
  · rw [List.getElem?_eq_none_iff, List.length_append, List.length_replicate]
    norm_num

theorem sample_sorted : (List.replicate 16777219 (0 : Int) ++ [1]).Sorted (· ≤ ·) := by
  rw [List.Sorted, List.pairwise_append]
  refine ⟨List.pairwise_replicate.mpr (Or.inr le_rfl), List.pairwise_singleton _ _, ?_⟩
  intro a ha b hb
  rw [List.eq_of_mem_replicate ha, List.mem_singleton.mp hb]
  norm_num

set_option maxRecDepth 1000000 in
/-- The estimate for `array_size = 16777220`, `key - min = max - min = 1`: the conversion
of `i = 16777219 = 2^24 + 3` to `float` rounds up to `16777220`. -/
theorem interpolate_rounds_up : interpolate 16777219 1 1 = some 16777220 := by
  decide

/-- On an array of length `16777220` with `array[0] = 0` and last value `1`, the search for
`1` reads `array[16777220]`. -/
theorem interpolated_search_rounding (A : List Int) (h0 : A[0]? = some 0)
    (h1 : A[16777219]? = some 1) (h2 : A[16777220]? = none) :
    monobound_interpolated_search A 16777220 1 0 = none := by
  have hi : toU32 (16777220 - 1) = 16777219 := by decide
  have hx : sub_i32 1 0 = some 1 := by decide
  unfold monobound_interpolated_search
  simp only [h0, hi, h1, hx, interpolate_rounds_up]
  unfold interpolated_from
  simp only [h2]
  rw [if_neg (by decide), if_pos (by decide)]

/-- C5 fails on the code: on the sorted array of `16777219` zeros followed by `1`
(`array_size = 16777220`), the key `1` occurs, the estimate is `16777220`, and
`monobound_interpolated_search` reads `array[16777220]`, outside the array. -/
theorem interpolated_rounding_out_of_bounds :
    (List.replicate 16777219 (0 : Int) ++ [1]).Sorted (· ≤ ·) ∧
    (1 : Int) ∈ List.replicate 16777219 (0 : Int) ++ [1] ∧
    interpolate 16777219 1 1 = some 16777220 ∧
    (List.replicate 16777219 (0 : Int) ++ [1])[16777220]? = none ∧
    monobound_interpolated_search (List.replicate 16777219 0 ++ [1]) 16777220 1 0 = none :=
  ⟨sample_sorted, List.mem_append_right _ (List.mem_singleton_self 1), interpolate_rounds_up,
    sample_reads.2.2,
    interpolated_search_rounding _ sample_reads.1 sample_reads.2.1 sample_reads.2.2⟩

set_option maxRecDepth 1000000 in
/-- C6 fails on the code: on the sorted array `[0, 1, 2]` with the absent key `100` the
estimate is `100`, and `monobound_interpolated_search` reads `array[100]`, outside the
array, instead of returning `-1`. -/
theorem interpolated_unclamped_out_of_bounds :
    ([0, 1, 2] : List Int).Sorted (· ≤ ·) ∧ (100 : Int) ∉ ([0, 1, 2] : List Int) ∧
    interpolate 2 100 2 = some 100 ∧ ([0, 1, 2] : List Int)[100]? = none ∧
    monobound_interpolated_search [0, 1, 2] 3 100 0 = none := by
  decide

/-! ## The counter does not steer the loops -/

theorem final_check_shift (A : List Int) (key : Int) (i : Nat) (c d : Int) :
    final_check A key i (c + d) = (final_check A key i c).map (fun p => (p.1, p.2 + d)) := by
  unfold final_check
  rcases A[i]? with _ | v
  · rfl
  · simp only []
    split <;> simp only [Option.map_some', add_right_comm c d 1]

theorem standard_loop_shift (A : List Int) (key d : Int) :
    ∀ (fuel : Nat) (bot i c : Int), standard_loop A key fuel bot i (c + d)
      = (standard_loop A key fuel bot i c).map (fun p => (p.1, p.2 + d)) := by
  intro fuel
  induction fuel with
  | zero => intro bot i c; rfl
  | succ fuel ih =>
    intro bot i c
    unfold standard_loop
    by_cases hb : bot < i
    · simp only [hb, if_true]
      rcases readI A (i - (i - bot).tdiv 2) with _ | v
      · rfl
      · simp only [add_right_comm c d 1]
        split <;> exact ih _ _ _
    · simp only [hb, if_false, Option.map_some']

theorem boundless_loop_shift (A : List Int) (key d : Int) :
    ∀ (fuel i mid : Nat) (c : Int), boundless_loop A key fuel i mid (c + d)
      = (boundless_loop A key fuel i mid c).map (fun p => (p.1, p.2 + d)) := by
  intro fuel
  induction fuel with
  | zero => intro i mid c; rfl
  | succ fuel ih =>
    intro i mid c
    unfold boundless_loop
    by_cases hb : mid > 1
    · simp only [hb, if_true]
      rcases A[u32 (i + mid / 2)]? with _ | v
      · rfl
      · simp only [add_right_comm c d 1]
        split <;> exact ih _ _ _
    · simp only [hb, if_false, Option.map_some']

theorem monobound_loop_shift (A : List Int) (key d : Int) :
    ∀ (fuel bot top : Nat) (c : Int), monobound_loop A key fuel bot top (c + d)
      = (monobound_loop A key fuel bot top c).map (fun p => (p.1, p.2 + d)) := by
  intro fuel
  induction fuel with
  | zero => intro bot top c; rfl
  | succ fuel ih =>
    intro bot top c
    unfold monobound_loop
    by_cases hb : top > 1
    · simp only [hb, if_true]
      rcases A[u32 (bot + top / 2)]? with _ | v
      · rfl
      · simp only [add_right_comm c d 1]
        exact ih _ _ _
    · simp only [hb, if_false, Option.map_some']

theorem monobound_down_loop_shift (A : List Int) (key d : Int) :
    ∀ (fuel i top : Nat) (c : Int), monobound_down_loop A key fuel i top (c + d)
      = (monobound_down_loop A key fuel i top c).map (fun p => (p.1, p.2 + d)) := by
  intro fuel
  induction fuel with
  | zero => intro i top c; rfl
  | succ fuel ih =>
    intro i top c
    unfold monobound_down_loop
    by_cases hb : top > 1
    · simp only [hb, if_true]
      rcases A[usub i (top / 2)]? with _ | v
      · rfl
      · simp only [add_right_comm c d 1]
        exact ih _ _ _
    · simp only [hb, if_false, Option.map_some']

theorem quaternary_loop_shift (A : List Int) (key d : Int) :
    ∀ (fuel bot top : Nat) (c : Int), quaternary_loop A key fuel bot top (c + d)
      = (quaternary_loop A key fuel bot top c).map (fun p => (p.1, p.2.1, p.2.2 + d)) := by
  intro fuel
  induction fuel with
  | zero => intro bot top c; rfl
  | succ fuel ih =>
    intro bot top c
    unfold quaternary_loop
    by_cases hb : top ≥ 512
    · simp only [hb, if_true]
      rcases A[u32 (bot + top / 4)]? with _ | v1
      · rfl
      · simp only [add_right_comm c d 1]
        split
        · exact ih _ _ _
        · rcases A[u32 (u32 (bot + top / 4) + top / 4)]? with _ | v2
          · rfl
          · simp only [add_right_comm (c + 1) d 1]
            split
            · exact ih _ _ _
            · rcases A[u32 (u32 (u32 (bot + top / 4) + top / 4) + top / 4)]? with _ | v3
              · rfl
              · simp only [add_right_comm (c + 1 + 1) d 1]
                split <;> exact ih _ _ _
    · simp only [hb, if_false, Option.map_some']

theorem ascend_loop_shift (A : List Int) (n key d : Int) :
    ∀ (fuel i mid : Nat) (c : Int), ascend_loop A n key fuel i mid (c + d)
      = (ascend_loop A n key fuel i mid c).map (fun p => (p.1, p.2.1, p.2.2 + d)) := by
  intro fuel
  induction fuel with
  | zero => intro i mid c; rfl
  | succ fuel ih =>
    intro i mid c
    unfold ascend_loop
    by_cases hb : u32 (i + mid) ≥ toU32 n
    · simp only [hb, if_true, Option.map_some']
    · simp only [hb, if_false]
      rcases A[u32 (i + mid)]? with _ | v
      · rfl
      · simp only [add_right_comm c d 1]
        split
        · exact ih _ _ _
        · rfl

theorem descend_loop_shift (A : List Int) (key d : Int) :
    ∀ (fuel i mid : Nat) (c : Int), descend_loop A key fuel i mid (c + d)
      = (descend_loop A key fuel i mid c).map (fun p => (p.1, p.2.1, p.2.2 + d)) := by
  intro fuel
  induction fuel with
  | zero => intro i mid c; rfl
  | succ fuel ih =>
    intro i mid c
    unfold descend_loop
    by_cases hb : i < mid
    · simp only [hb, if_true, Option.map_some']
    · simp only [hb, if_false]
      rcases A[usub i mid]? with _ | v
      · rfl
      · simp only [add_right_comm c d 1]
        split
        · exact ih _ _ _
        · rfl

/-- Entered with the counter advanced by `d`, `standard_binary_search` returns the same
value and the counter advanced by `d`. -/
theorem standard_binary_search_shift (A : List Int) (n key c d : Int) :
    standard_binary_search A n key (c + d)
      = (standard_binary_search A n key c).map (fun p => (p.1, p.2 + d)) := by
  unfold standard_binary_search
  rw [standard_loop_shift]
  rcases standard_loop A key (n.toNat + 1) 0 (n - 1) c with _ | ⟨i, c1⟩
  · rfl
  · simp only [Option.map_some']
    rcases readI A i with _ | v
    · rfl
    · simp only []
      split <;> simp only [Option.map_some', add_right_comm c1 d 1]

/-- Entered with the counter advanced by `d`, `boundless_binary_search` returns the same
value and the counter advanced by `d`. -/
theorem boundless_binary_search_shift (A : List Int) (n key c d : Int) :
    boundless_binary_search A n key (c + d)
      = (boundless_binary_search A n key c).map (fun p => (p.1, p.2 + d)) := by
  unfold boundless_binary_search
  rw [boundless_loop_shift]
  rcases boundless_loop A key (toU32 n + 1) 0 (toU32 n) c with _ | ⟨i, c1⟩
  · rfl
  · simp only [Option.map_some']
    exact final_check_shift A key i c1 d

/-- Entered with the counter advanced by `d`, `monobound_binary_search` returns the same
value and the counter advanced by `d`. -/
theorem monobound_binary_search_shift (A : List Int) (n key c d : Int) :
    monobound_binary_search A n key (c + d)
      = (monobound_binary_search A n key c).map (fun p => (p.1, p.2 + d)) := by
  unfold monobound_binary_search
  rw [monobound_loop_shift]
  rcases monobound_loop A key (toU32 n + 1) 0 (toU32 n) c with _ | ⟨i, c1⟩
  · rfl
  · simp only [Option.map_some']
    exact final_check_shift A key i c1 d

/-- Entered with the counter advanced by `d`, `monobound_quaternary_search` returns the
same value and the counter advanced by `d`. -/
theorem monobound_quaternary_search_shift (A : List Int) (n key c d : Int) :
    monobound_quaternary_search A n key (c + d)
      = (monobound_quaternary_search A n key c).map (fun p => (p.1, p.2 + d)) := by
  unfold monobound_quaternary_search
  rw [quaternary_loop_shift]
  rcases quaternary_loop A key (toU32 n + 1) 0 (toU32 n) c with _ | ⟨b, t, c1⟩
  · rfl
  · simp only [Option.map_some']
    rw [monobound_loop_shift]
    rcases monobound_loop A key (t + 1) b t c1 with _ | ⟨i, c2⟩
    · rfl
    · simp only [Option.map_some']
      exact final_check_shift A key i c2 d

/-- Entered with the counter advanced by `d`, the code of `monobound_interpolated_search`
after the estimate returns the same value and the counter advanced by `d`. -/
theorem interpolated_from_shift (A : List Int) (n key : Int) (i : Nat) (c d : Int) :
    interpolated_from A n key i (c + d)
      = (interpolated_from A n key i c).map (fun p => (p.1, p.2 + d)) := by
  unfold interpolated_from
  rcases A[i]? with _ | v
  · rfl
  · simp only [add_right_comm c d 1]
    split
    · rw [ascend_loop_shift]
      rcases ascend_loop A n key (toU32 n + 1) i 64 (c + 1) with _ | ⟨j, mid, c1⟩
      · rfl
      · simp only [Option.map_some']
        rw [monobound_loop_shift]
        rcases monobound_loop A key (mid + 1) j mid c1 with _ | ⟨f, c2⟩
        · rfl
        · simp only [Option.map_some']
          exact final_check_shift A key f c2 d
    · rw [descend_loop_shift]
      rcases descend_loop A key (i + 1) i 64 (c + 1) with _ | ⟨j, mid, c1⟩
      · rfl
      · simp only [Option.map_some']
        rw [monobound_down_loop_shift]
        rcases monobound_down_loop A key (mid + 1) j mid c1 with _ | ⟨f, c2⟩
        · rfl
        · simp only [Option.map_some']
          exact final_check_shift A key f c2 d

/-- Entered with the counter advanced by `d`, `monobound_interpolated_search` returns the
same value and the counter advanced by `d`, provided neither counter is `-2` on entry
(where the `++checks` of the guard's `return` is `0`). -/
theorem monobound_interpolated_search_shift (A : List Int) (n key c d : Int)
    (h1 : c ≠ -2) (h2 : c + d ≠ -2) :
    monobound_interpolated_search A n key (c + d)
      = (monobound_interpolated_search A n key c).map (fun p => (p.1, p.2 + d)) := by
  unfold monobound_interpolated_search
  rcases A[0]? with _ | a0
  · rfl
  · simp only []
    split
    · have e1 : c + 1 + 1 ≠ 0 := by omega
      have e2 : c + d + 1 + 1 ≠ 0 := by omega
      simp only [e1, e2, ne_eq, not_false_eq_true, true_and, Option.map_some']
      split <;> simp only [add_right_comm c d 1, add_right_comm (c + 1) d 1]
    · rcases A[toU32 (n - 1)]? with _ | mx
      · rfl
      · simp only [add_right_comm c d 1]
        split
        · rcases sub_i32 key a0 with _ | dx
          · rfl
          · rcases sub_i32 mx a0 with _ | dy
            · rfl
            · simp only []
              rcases interpolate (toU32 (n - 1)) dx dy with _ | e
              · rfl
              · exact interpolated_from_shift A n key e (c + 1) d
        · exact interpolated_from_shift A n key _ (c + 1) d

/-! ## The guard path, the counter and the boundary scenarios -/

/-- C11: on an array of length `N ≥ 1`, when `N ≤ 1` or `key ≤ array[0]`,
`monobound_interpolated_search` entered with a counter `checks ≥ 0` returns `0` if
`array[0] = key` and `-1` otherwise, and advances the counter by exactly two. -/
theorem interpolated_guard_path (A : List Int) (key checks a0 : Int) (hN : 1 ≤ A.length)
    (h0 : A[0]? = some a0) (hg : A.length ≤ 1 ∨ key ≤ a0) (hc : 0 ≤ checks) :
    (a0 = key →
      monobound_interpolated_search A (A.length : Int) key checks = some (0, checks + 2)) ∧
    (a0 ≠ key →
      monobound_interpolated_search A (A.length : Int) key checks = some (-1, checks + 2)) := by
  have hg2 : key ≤ a0 ∨ (A.length : Int) ≤ 1 := by
    rcases hg with hg | hg
    · right; omega
    · left; exact hg
  have e : checks + 1 + 1 = checks + 2 := by ring
  have hne : checks + 2 ≠ 0 := by omega
  unfold monobound_interpolated_search
  rw [h0]
  simp only [hg2, if_true, e]
  constructor
  · intro h
    rw [if_pos ⟨hne, h⟩]
  · intro h
    rw [if_neg (fun hh => h hh.2)]

theorem interpolated_guard_path_witness :
    1 ≤ ([5] : List Int).length ∧ ([5] : List Int)[0]? = some 5 ∧
    (([5] : List Int).length ≤ 1 ∨ (5 : Int) ≤ 5) ∧ (0 : Int) ≤ 0 ∧
    ((5 : Int) = 5 →
      monobound_interpolated_search [5] (([5] : List Int).length : Int) 5 0
        = some (0, 0 + 2)) ∧
    ((5 : Int) ≠ 5 →
      monobound_interpolated_search [5] (([5] : List Int).length : Int) 5 0
        = some (-1, 0 + 2)) :=
  ⟨by decide, by decide, by decide, by decide,
    interpolated_guard_path [5] 5 0 5 (by decide) (by decide) (by decide) (by decide)⟩

/-- Outside the range of the counter: on `[5]` with key `5`,
`monobound_interpolated_search` returns `0` when entered with the counter at `0`; entered
with the counter at `-2`, a value the program never holds, the `++checks` of
`return ++checks && array[0] == key ? 0 : -1;` is `0` and the value returned is `-1`. -/
theorem interpolated_guard_at_minus_two :
    monobound_interpolated_search [5] 1 5 0 = some (0, 2) ∧
    monobound_interpolated_search [5] 1 5 (-2) = some (-1, 0) := by
  decide

/-- C13: on every array of length `N ≥ 1` (`N < 2^31`) and every key,
`monobound_binary_search` advances the comparison counter by at least as much as
`boundless_binary_search`; on `[1, 2, 3]` with key `0` (`N = 3`, `key < array[1]`) it
advances it by 3 and `boundless_binary_search` by 2. -/
theorem monobound_count_ge_boundless (A : List Int) (key checks : Int) (hN : 1 ≤ A.length)
    (hlen : A.length < 2147483648) :
    (∃ (r1 r2 : Int) (n1 n2 : Nat),
      monobound_binary_search A (A.length : Int) key checks = some (r1, checks + (n1 : Int)) ∧
      boundless_binary_search A (A.length : Int) key checks = some (r2, checks + (n2 : Int)) ∧
      n2 ≤ n1) ∧
    monobound_binary_search [1, 2, 3] 3 0 0 = some (-1, 3) ∧
    boundless_binary_search [1, 2, 3] 3 0 0 = some (-1, 2) := by
  obtain ⟨f, n, hf, _, _, _, _, h9⟩ := standard_binary_search_eq A key checks hN
  obtain ⟨g, hg, _⟩ := monobound_binary_search_eq A key checks hN hlen
  refine ⟨⟨if key = A.getD g 0 then (g : Int) else -1,
    if key = A.getD f 0 then (f : Int) else -1, Nat.clog 2 A.length + 1, n + 1, ?_, ?_,
    by omega⟩, by decide, by decide⟩
  · rw [hg]; push_cast; rw [add_assoc]
  · rw [boundless_eq_standard A key checks hN hlen, hf]; push_cast; rw [add_assoc]

theorem monobound_count_ge_boundless_witness :
    1 ≤ ([1, 2, 3] : List Int).length ∧ ([1, 2, 3] : List Int).length < 2147483648 ∧
    ((∃ (r1 r2 : Int) (n1 n2 : Nat),
      monobound_binary_search [1, 2, 3] (([1, 2, 3] : List Int).length : Int) 0 0
        = some (r1, 0 + (n1 : Int)) ∧
      boundless_binary_search [1, 2, 3] (([1, 2, 3] : List Int).length : Int) 0 0
        = some (r2, 0 + (n2 : Int)) ∧
      n2 ≤ n1) ∧
    monobound_binary_search [1, 2, 3] 3 0 0 = some (-1, 3) ∧
    boundless_binary_search [1, 2, 3] 3 0 0 = some (-1, 2)) :=
  ⟨by decide, by decide, monobound_count_ge_boundless [1, 2, 3] 0 0 (by decide) (by decide)⟩

/-- A result computed from the counter `0` gives the result from every counter `checks`,
for a function that only advances the counter. -/
theorem result_of_zero {f : List Int → Int → Int → Int → Option (Int × Int)}
    {A : List Int} {n key checks r c0 : Int}
    (hshift : f A n key (0 + checks) = (f A n key 0).map (fun p => (p.1, p.2 + checks)))
    (h0 : f A n key 0 = some (r, c0)) : ∃ c, f A n key checks = some (r, c) := by
  rw [zero_add, h0] at hshift
  exact ⟨_, hshift⟩

set_option maxRecDepth 1000000 in
/-- C14: for each of the five variants, entered with a counter `checks ≥ 0`: on `[5]` the
key `5` gives `0` and the key `3` gives `-1`; on `[1, 3, 3, 3, 7]` the key `3` gives an
index in `{1, 2, 3}`; on `[2, 4, 6, 8, 10]` the keys `1` and `11` give `-1`. -/
theorem boundary_scenarios (checks : Int) (hc : 0 ≤ checks) :
    ∀ f ∈ [standard_binary_search, boundless_binary_search, monobound_binary_search,
        monobound_quaternary_search, monobound_interpolated_search],
      (∃ c, f [5] 1 5 checks = some (0, c)) ∧
      (∃ c, f [5] 1 3 checks = some (-1, c)) ∧
      (∃ r c, f [1, 3, 3, 3, 7] 5 3 checks = some (r, c) ∧ (r = 1 ∨ r = 2 ∨ r = 3)) ∧
      (∃ c, f [2, 4, 6, 8, 10] 5 1 checks = some (-1, c)) ∧
      (∃ c, f [2, 4, 6, 8, 10] 5 11 checks = some (-1, c)) := by
  intro f hf
  simp only [List.mem_cons, List.mem_singleton, List.not_mem_nil, or_false] at hf
  rcases hf with rfl | rfl | rfl | rfl | rfl
  · refine ⟨?_, ?_, ?_, ?_, ?_⟩
    · exact result_of_zero (standard_binary_search_shift _ _ _ 0 checks)
        (show _ = some (0, 1) by decide)
    · exact result_of_zero (standard_binary_search_shift _ _ _ 0 checks)
        (show _ = some (-1, 1) by decide)
    · obtain ⟨c, h⟩ := result_of_zero (standard_binary_search_shift [1, 3, 3, 3, 7] 5 3 0 checks)
        (show _ = some (3, 4) by decide)
      exact ⟨3, c, h, Or.inr (Or.inr rfl)⟩
    · exact result_of_zero (standard_binary_search_shift _ _ _ 0 checks)
        (show _ = some (-1, 3) by decide)
    · exact result_of_zero (standard_binary_search_shift _ _ _ 0 checks)
        (show _ = some (-1, 4) by decide)
  · refine ⟨?_, ?_, ?_, ?_, ?_⟩
    · exact result_of_zero (boundless_binary_search_shift _ _ _ 0 checks)
        (show _ = some (0, 1) by decide)
    · exact result_of_zero (boundless_binary_search_shift _ _ _ 0 checks)
        (show _ = some (-1, 1) by decide)
    · obtain ⟨c, h⟩ := result_of_zero (boundless_binary_search_shift [1, 3, 3, 3, 7] 5 3 0 checks)
        (show _ = some (3, 4) by decide)
      exact ⟨3, c, h, Or.inr (Or.inr rfl)⟩
    · exact result_of_zero (boundless_binary_search_shift _ _ _ 0 checks)
        (show _ = some (-1, 3) by decide)
    · exact result_of_zero (boundless_binary_search_shift _ _ _ 0 checks)
        (show _ = some (-1, 4) by decide)
  · refine ⟨?_, ?_, ?_, ?_, ?_⟩
    · exact result_of_zero (monobound_binary_search_shift _ _ _ 0 checks)
        (show _ = some (0, 1) by decide)
    · exact result_of_zero (monobound_binary_search_shift _ _ _ 0 checks)
        (show _ = some (-1, 1) by decide)
    · obtain ⟨c, h⟩ := result_of_zero (monobound_binary_search_shift [1, 3, 3, 3, 7] 5 3 0 checks)
        (show _ = some (3, 4) by decide)
      exact ⟨3, c, h, Or.inr (Or.inr rfl)⟩
    · exact result_of_zero (monobound_binary_search_shift _ _ _ 0 checks)
        (show _ = some (-1, 4) by decide)
    · exact result_of_zero (monobound_binary_search_shift _ _ _ 0 checks)
        (show _ = some (-1, 4) by decide)
  · refine ⟨?_, ?_, ?_, ?_, ?_⟩
    · exact result_of_zero (monobound_quaternary_search_shift _ _ _ 0 checks)
        (show _ = some (0, 1) by decide)
    · exact result_of_zero (monobound_quaternary_search_shift _ _ _ 0 checks)
        (show _ = some (-1, 1) by decide)
    · obtain ⟨c, h⟩ := result_of_zero
        (monobound_quaternary_search_shift [1, 3, 3, 3, 7] 5 3 0 checks)
        (show _ = some (3, 4) by decide)
      exact ⟨3, c, h, Or.inr (Or.inr rfl)⟩
    · exact result_of_zero (monobound_quaternary_search_shift _ _ _ 0 checks)
        (show _ = some (-1, 4) by decide)
    · exact result_of_zero (monobound_quaternary_search_shift _ _ _ 0 checks)
        (show _ = some (-1, 4) by decide)
  · have h1 : (0 : Int) ≠ -2 := by decide
    have h2 : 0 + checks ≠ -2 := by omega
    refine ⟨?_, ?_, ?_, ?_, ?_⟩
    · exact result_of_zero (monobound_interpolated_search_shift _ _ _ 0 checks h1 h2)
        (show _ = some (0, 2) by decide)
    · exact result_of_zero (monobound_interpolated_search_shift _ _ _ 0 checks h1 h2)
        (show _ = some (-1, 2) by decide)
    · obtain ⟨c, h⟩ := result_of_zero
        (monobound_interpolated_search_shift [1, 3, 3, 3, 7] 5 3 0 checks h1 h2)
        (show _ = some (3, 5) by decide)
      exact ⟨3, c, h, Or.inr (Or.inr rfl)⟩
    · exact result_of_zero (monobound_interpolated_search_shift _ _ _ 0 checks h1 h2)
        (show _ = some (-1, 2) by decide)
    · exact result_of_zero (monobound_interpolated_search_shift _ _ _ 0 checks h1 h2)
        (show _ = some (-1, 3) by decide)

theorem boundary_scenarios_witness :
    (0 : Int) ≤ 0 ∧
    ∀ f ∈ [standard_binary_search, boundless_binary_search, monobound_binary_search,
        monobound_quaternary_search, monobound_interpolated_search],
      (∃ c, f [5] 1 5 0 = some (0, c)) ∧
      (∃ c, f [5] 1 3 0 = some (-1, c)) ∧
      (∃ r c, f [1, 3, 3, 3, 7] 5 3 0 = some (r, c) ∧ (r = 1 ∨ r = 2 ∨ r = 3)) ∧
      (∃ c, f [2, 4, 6, 8, 10] 5 1 0 = some (-1, c)) ∧
      (∃ c, f [2, 4, 6, 8, 10] 5 11 0 = some (-1, c)) :=
  ⟨le_refl 0, boundary_scenarios 0 (le_refl 0)⟩

/-! ## Index safety and tie-break -/

/-- C15: on a sorted array of length `N ≥ 2` (`N < 2^31`) with `array[0] < key`, the code
of `monobound_interpolated_search` after the estimate, entered with any index `e ≤ N - 1`,
returns a result (no read falls outside the array and both loops end): an index holding
`key` when `key` occurs in the array, and `-1` when it does not. -/
theorem interpolated_phases_correct (A : List Int) (key checks a0 : Int) (e : Nat)
    (hN : 2 ≤ A.length) (hlen : A.length < 2147483648) (hs : A.Sorted (· ≤ ·))
    (h0 : A[0]? = some a0) (hk : a0 < key) (he : e ≤ A.length - 1) :
    ∃ r c : Int, interpolated_from A (A.length : Int) key e checks = some (r, c) ∧
      (key ∈ A → 0 ≤ r ∧ r < A.length ∧ A[r.toNat]? = some key) ∧ (key ∉ A → r = -1) := by
  have h1 : A.getD 0 0 = a0 := by
    have := getElem?_eq_getD A (show 0 < A.length by omega)
    rw [h0] at this
    exact (Option.some.inj this).symm
  exact interpolated_from_correct A key checks e hlen hs (by rw [h1]; exact hk) (by omega)

theorem interpolated_phases_correct_witness :
    2 ≤ ([0, 50, 50, 60, 100] : List Int).length ∧
    ([0, 50, 50, 60, 100] : List Int).length < 2147483648 ∧
    ([0, 50, 50, 60, 100] : List Int).Sorted (· ≤ ·) ∧
    ([0, 50, 50, 60, 100] : List Int)[0]? = some 0 ∧ (0 : Int) < 50 ∧
    3 ≤ ([0, 50, 50, 60, 100] : List Int).length - 1 ∧
    ∃ r c : Int, interpolated_from [0, 50, 50, 60, 100]
        (([0, 50, 50, 60, 100] : List Int).length : Int) 50 3 0 = some (r, c) ∧
      ((50 : Int) ∈ ([0, 50, 50, 60, 100] : List Int) →
        0 ≤ r ∧ r < ([0, 50, 50, 60, 100] : List Int).length ∧
          ([0, 50, 50, 60, 100] : List Int)[r.toNat]? = some 50) ∧
      ((50 : Int) ∉ ([0, 50, 50, 60, 100] : List Int) → r = -1) :=
  ⟨by decide, by decide, by decide, by decide, by decide, by decide,
    interpolated_phases_correct [0, 50, 50, 60, 100] 50 0 0 3 (by decide) (by decide)
      (by decide) (by decide) (by decide) (by decide)⟩

/-- C16: on every array of length `N ≥ 1` (`N < 2^31`), sorted or not, and every key, each
of the four bisection variants returns a result: no read falls outside the array (such a
read makes the result `none`) and every loop ends. -/
theorem bisection_index_safety (A : List Int) (key checks : Int) (hN : 1 ≤ A.length)
    (hlen : A.length < 2147483648) :
    (∃ r c : Int, standard_binary_search A (A.length : Int) key checks = some (r, c)) ∧
    (∃ r c : Int, boundless_binary_search A (A.length : Int) key checks = some (r, c)) ∧
    (∃ r c : Int, monobound_binary_search A (A.length : Int) key checks = some (r, c)) ∧
    (∃ r c : Int, monobound_quaternary_search A (A.length : Int) key checks = some (r, c)) := by
  obtain ⟨f, n, hf, _⟩ := standard_binary_search_eq A key checks hN
  obtain ⟨g, hg, _⟩ := monobound_binary_search_eq A key checks hN hlen
  obtain ⟨q, m, hq, _⟩ := monobound_quaternary_search_eq A key checks hN hlen
  exact ⟨⟨_, _, hf⟩, ⟨_, _, (boundless_eq_standard A key checks hN hlen).trans hf⟩,
    ⟨_, _, hg⟩, ⟨_, _, hq⟩⟩

theorem bisection_index_safety_witness :
    1 ≤ ([9, 2, 7, 2, 5] : List Int).length ∧
    ([9, 2, 7, 2, 5] : List Int).length < 2147483648 ∧
    (∃ r c : Int, standard_binary_search [9, 2, 7, 2, 5]
      (([9, 2, 7, 2, 5] : List Int).length : Int) 7 0 = some (r, c)) ∧
    (∃ r c : Int, boundless_binary_search [9, 2, 7, 2, 5]
      (([9, 2, 7, 2, 5] : List Int).length : Int) 7 0 = some (r, c)) ∧
    (∃ r c : Int, monobound_binary_search [9, 2, 7, 2, 5]
      (([9, 2, 7, 2, 5] : List Int).length : Int) 7 0 = some (r, c)) ∧
    (∃ r c : Int, monobound_quaternary_search [9, 2, 7, 2, 5]
      (([9, 2, 7, 2, 5] : List Int).length : Int) 7 0 = some (r, c)) :=
  ⟨by decide, by decide, bisection_index_safety [9, 2, 7, 2, 5] 7 0 (by decide) (by decide)⟩

/-- Two indices that are `0` or hold a value `≤ key`, and after which every value is above
`key`, are equal. -/
theorem last_le_unique {A : List Int} {key : Int} {f g : Nat} (hg : g < A.length)
    (hf1 : f = 0 ∨ A.getD f 0 ≤ key) (hf2 : ∀ j, f < j → j < A.length → key < A.getD j 0)
    (hg1 : g = 0 ∨ A.getD g 0 ≤ key) (hf : f < A.length)
    (hg2 : ∀ j, g < j → j < A.length → key < A.getD j 0) : f = g := by
  rcases Nat.lt_trichotomy f g with h | h | h
  · have h1 := hf2 g h hg
    rcases hg1 with h2 | h2 <;> omega
  · exact h
  · have h1 := hg2 f h hf
    rcases hf1 with h2 | h2 <;> omega

/-- C17: on a sorted array of length `N ≥ 1` (`N < 2^31`), the loops of the four bisection
variants all end at the same index `f`: the largest index holding a value `≤ key`, or `0`
when `key < array[0]`.  When `key` occurs in the array, `f` is the last index holding
`key` and all four variants return `f`. -/
theorem bisection_tie_break (A : List Int) (key checks : Int) (hN : 1 ≤ A.length)
    (hlen : A.length < 2147483648) (hs : A.Sorted (· ≤ ·)) :
    ∃ f : Nat, f < A.length ∧
      ((A.getD f 0 ≤ key ∧ ∀ j, f < j → j < A.length → key < A.getD j 0) ∨
        (key < A.getD 0 0 ∧ f = 0)) ∧
      (∃ c, standard_loop A key ((A.length : Int).toNat + 1) 0 ((A.length : Int) - 1) checks
        = some ((f : Int), c)) ∧
      (∃ c, boundless_loop A key (toU32 (A.length : Int) + 1) 0 (toU32 (A.length : Int)) checks
        = some (f, c)) ∧
      (∃ c, monobound_loop A key (toU32 (A.length : Int) + 1) 0 (toU32 (A.length : Int)) checks
        = some (f, c)) ∧
      (∃ b t c1 c, quaternary_loop A key (toU32 (A.length : Int) + 1) 0
          (toU32 (A.length : Int)) checks = some (b, t, c1) ∧
        monobound_loop A key (t + 1) b t c1 = some (f, c)) ∧
      (key ∈ A → A.getD f 0 = key ∧ (∀ j, f < j → j < A.length → A.getD j 0 ≠ key) ∧
        (∃ c, standard_binary_search A (A.length : Int) key checks = some ((f : Int), c)) ∧
        (∃ c, boundless_binary_search A (A.length : Int) key checks = some ((f : Int), c)) ∧
        (∃ c, monobound_binary_search A (A.length : Int) key checks = some ((f : Int), c)) ∧
        (∃ c, monobound_quaternary_search A (A.length : Int) key checks
          = some ((f : Int), c))) := by
  have hU : toU32 (A.length : Int) = A.length := toU32_natCast (by omega)
  -- the monobound loop
  obtain ⟨f, hf, _, m2, m3, m4⟩ :=
    monobound_loop_spec A key hlen (A.length + 1) 0 A.length checks hN (by omega) (by omega)
  have hfl : f < A.length := by omega
  have hup : ∀ j, f < j → j < A.length → key < A.getD j 0 :=
    m4 hs (fun j hj1 hj2 => by omega)
  -- the standard loop
  obtain ⟨fs, ns, hfs, _, s2, s3, s4, _, _⟩ :=
    standard_loop_spec A key (A.length + 1) 0 (A.length - 1) checks (by omega) (by omega)
      (by omega)
  have hsup : ∀ j, fs < j → j < A.length → key < A.getD j 0 := by
    intro j hj1 hj2
    rcases s4 with s4 | s4
    · omega
    · exact lt_of_lt_of_le s4 (sorted_getD hs (by omega) hj2)
  have hfs_eq : fs = f := last_le_unique hfl s3 hsup m3 (by omega) hup
  subst hfs_eq
  have e2 : ((A.length : Int) - 1) = ((A.length - 1 : Nat) : Int) := by omega
  have hfs2 : standard_loop A key (A.length + 1) 0 ((A.length - 1 : Nat) : Int) checks
      = some ((fs : Int), checks + (ns : Int)) := hfs
  -- the boundless loop
  have hb := boundless_loop_eq_standard A key hlen (A.length + 1) 0 A.length checks hN
    (by omega)
  have hb2 : boundless_loop A key (A.length + 1) 0 A.length checks
      = (standard_loop A key (A.length + 1) 0 ((A.length - 1 : Nat) : Int) checks).map
          (fun p => (p.1.toNat, p.2)) := by
    rw [hb]
    have e3 : 0 + A.length - 1 = A.length - 1 := by omega
    rw [e3]
    rfl
  rw [hfs2] at hb2
  simp only [Option.map_some', Int.toNat_ofNat] at hb2
  -- the quaternary loop and the monobound loop after it
  obtain ⟨b, t, n, hq, q1, q2, _, _, q5, q6, q7, _⟩ :=
    quaternary_loop_spec A key hlen (A.length + 1) 0 A.length checks hN (by omega) (by omega)
  obtain ⟨fq, hfq, _, k2, k3, k4⟩ :=
    monobound_loop_spec A key hlen (t + 1) b t (checks + (n : Int)) q1 (by omega) (by omega)
  have hq0 : fq = 0 ∨ A.getD fq 0 ≤ key := by
    rcases k3 with k3 | k3
    · rcases q6 with q6 | q6
      · left; omega
      · right; rw [k3]; exact q6
    · right; exact k3
  have hqup : ∀ j, fq < j → j < A.length → key < A.getD j 0 :=
    k4 hs (q7 hs (fun j hj1 hj2 => by omega))
  have hfq_eq : fq = fs := last_le_unique hfl hq0 hqup m3 (by omega) hup
  subst hfq_eq
  refine ⟨fq, hfl, ?_, ⟨_, by rw [Int.toNat_ofNat, e2]; exact hfs2⟩, ⟨_, by rw [hU]; exact hb2⟩,
    ⟨_, by rw [hU]; exact hf⟩, ⟨b, t, _, _, by rw [hU]; exact hq, hfq⟩, ?_⟩
  · by_cases hle : A.getD fq 0 ≤ key
    · exact Or.inl ⟨hle, hup⟩
    · right
      have h0 : fq = 0 := by
        rcases m3 with m3 | m3
        · exact m3
        · exact absurd m3 hle
      rw [h0] at hle
      exact ⟨lt_of_not_ge hle, h0⟩
  · intro hmem
    have hkey : A.getD fq 0 = key := (mem_iff_getD_final hs hfl m3 hup).mp hmem
    -- the four returned values
    obtain ⟨f1, n1, hr1, a1, a2, a3, _, _⟩ := standard_binary_search_eq A key checks hN
    have ha3 : ∀ j, f1 < j → j < A.length → key < A.getD j 0 := by
      intro j hj1 hj2
      rcases a3 with a3 | a3
      · omega
      · exact lt_of_lt_of_le a3 (sorted_getD hs (by omega) hj2)
    have hf1 : f1 = fq := last_le_unique hfl a2 ha3 m3 a1 hup
    subst hf1
    obtain ⟨f3, hr3, c1, c2, c3⟩ := monobound_binary_search_eq A key checks hN hlen
    have hf3 : f3 = f1 := last_le_unique hfl c2 (c3 hs) m3 c1 hup
    subst hf3
    obtain ⟨f4, n4, hr4, d1, d2, d3, _⟩ := monobound_quaternary_search_eq A key checks hN hlen
    have hf4 : f4 = f3 := last_le_unique hfl d2 (d3 hs) m3 d1 hup
    subst hf4
    rw [if_pos hkey.symm] at hr1 hr3 hr4
    refine ⟨hkey, ?_, ⟨_, hr1⟩, ⟨_, (boundless_eq_standard A key checks hN hlen).trans hr1⟩,
      ⟨_, hr3⟩, ⟨_, hr4⟩⟩
    intro j hj1 hj2 h
    have := hup j hj1 hj2
    omega

theorem bisection_tie_break_witness :
    1 ≤ ([1, 3, 3, 3, 7] : List Int).length ∧
    ([1, 3, 3, 3, 7] : List Int).length < 2147483648 ∧
    ([1, 3, 3, 3, 7] : List Int).Sorted (· ≤ ·) ∧
    ∃ f : Nat, f < ([1, 3, 3, 3, 7] : List Int).length ∧
      ((([1, 3, 3, 3, 7] : List Int).getD f 0 ≤ 3 ∧
          ∀ j, f < j → j < ([1, 3, 3, 3, 7] : List Int).length →
            3 < ([1, 3, 3, 3, 7] : List Int).getD j 0) ∨
        (3 < ([1, 3, 3, 3, 7] : List Int).getD 0 0 ∧ f = 0)) ∧
      (∃ c, standard_loop [1, 3, 3, 3, 7] 3
          ((([1, 3, 3, 3, 7] : List Int).length : Int).toNat + 1) 0
          ((([1, 3, 3, 3, 7] : List Int).length : Int) - 1) 0 = some ((f : Int), c)) ∧
      (∃ c, boundless_loop [1, 3, 3, 3, 7] 3
          (toU32 (([1, 3, 3, 3, 7] : List Int).length : Int) + 1) 0
          (toU32 (([1, 3, 3, 3, 7] : List Int).length : Int)) 0 = some (f, c)) ∧
      (∃ c, monobound_loop [1, 3, 3, 3, 7] 3
          (toU32 (([1, 3, 3, 3, 7] : List Int).length : Int) + 1) 0
          (toU32 (([1, 3, 3, 3, 7] : List Int).length : Int)) 0 = some (f, c)) ∧
      (∃ b t c1 c, quaternary_loop [1, 3, 3, 3, 7] 3
          (toU32 (([1, 3, 3, 3, 7] : List Int).length : Int) + 1) 0
          (toU32 (([1, 3, 3, 3, 7] : List Int).length : Int)) 0 = some (b, t, c1) ∧
        monobound_loop [1, 3, 3, 3, 7] 3 (t + 1) b t c1 = some (f, c)) ∧
      ((3 : Int) ∈ ([1, 3, 3, 3, 7] : List Int) →
        ([1, 3, 3, 3, 7] : List Int).getD f 0 = 3 ∧
        (∀ j, f < j → j < ([1, 3, 3, 3, 7] : List Int).length →
          ([1, 3, 3, 3, 7] : List Int).getD j 0 ≠ 3) ∧
        (∃ c, standard_binary_search [1, 3, 3, 3, 7]
          (([1, 3, 3, 3, 7] : List Int).length : Int) 3 0 = some ((f : Int), c)) ∧
        (∃ c, boundless_binary_search [1, 3, 3, 3, 7]
          (([1, 3, 3, 3, 7] : List Int).length : Int) 3 0 = some ((f : Int), c)) ∧
        (∃ c, monobound_binary_search [1, 3, 3, 3, 7]
          (([1, 3, 3, 3, 7] : List Int).length : Int) 3 0 = some ((f : Int), c)) ∧
        (∃ c, monobound_quaternary_search [1, 3, 3, 3, 7]
          (([1, 3, 3, 3, 7] : List Int).length : Int) 3 0 = some ((f : Int), c))) :=
  ⟨by decide, by decide, by decide,
    bisection_tie_break [1, 3, 3, 3, 7] 3 0 (by decide) (by decide) (by decide)⟩

set_option maxRecDepth 1000000 in
/-- C18: on a sorted array of length `N ≥ 2` (`N < 2^31`) with `array[0] < key` and `key`
in the array, the code after the estimate, entered with any index `e < N`, returns an
index `r` holding `key`: the last one when `array[e] ≤ key` (ascending branch) and the
first one when `key < array[e]` (descending branch).  On the guard path
(`key ≤ array[0]`) the value returned is `0` or `-1`, and it is `0` when `array[0] = key`
and the counter is not negative on entry.  On `[0, 50, 50, 60, 60, 60, 60, 60, 60, 60, 100]`
with key `50` the interpolated search returns `1` and the four bisection variants return
`2`. -/
theorem interpolated_tie_break (A : List Int) (key checks a0 : Int) (e : Nat)
    (hN : 2 ≤ A.length) (hlen : A.length < 2147483648) (hs : A.Sorted (· ≤ ·))
    (h0 : A[0]? = some a0) (hk : a0 < key) (hmem : key ∈ A) (he : e < A.length) :
    (∃ (r : Nat) (c : Int),
      interpolated_from A (A.length : Int) key e checks = some ((r : Int), c) ∧
      r < A.length ∧ A.getD r 0 = key ∧
      (A.getD e 0 ≤ key → ∀ j, r < j → j < A.length → A.getD j 0 ≠ key) ∧
      (key < A.getD e 0 → ∀ j, j < r → A.getD j 0 ≠ key)) ∧
    (∀ (B : List Int) (k c b0 : Int), B[0]? = some b0 → k ≤ b0 →
      ∃ r c2 : Int, monobound_interpolated_search B (B.length : Int) k c = some (r, c2) ∧
        (r = 0 ∨ r = -1) ∧ (0 ≤ c → b0 = k → r = 0)) ∧
    (∃ c, monobound_interpolated_search [0, 50, 50, 60, 60, 60, 60, 60, 60, 60, 100] 11 50 0
      = some (1, c)) ∧
    (∃ c, standard_binary_search [0, 50, 50, 60, 60, 60, 60, 60, 60, 60, 100] 11 50 0
      = some (2, c)) ∧
    (∃ c, boundless_binary_search [0, 50, 50, 60, 60, 60, 60, 60, 60, 60, 100] 11 50 0
      = some (2, c)) ∧
    (∃ c, monobound_binary_search [0, 50, 50, 60, 60, 60, 60, 60, 60, 60, 100] 11 50 0
      = some (2, c)) ∧
    (∃ c, monobound_quaternary_search [0, 50, 50, 60, 60, 60, 60, 60, 60, 60, 100] 11 50 0
      = some (2, c)) := by
  have h1 : A.getD 0 0 = a0 := by
    have := getElem?_eq_getD A (show 0 < A.length by omega)
    rw [h0] at this
    exact (Option.some.inj this).symm
  refine ⟨?_, ?_, ⟨6, by decide⟩, ⟨4, by decide⟩, ⟨4, by decide⟩, ⟨5, by decide⟩,
    ⟨5, by decide⟩⟩
  · obtain ⟨f, n, hr, hf, h⟩ :=
      interpolated_from_spec A key checks e hlen hs (by rw [h1]; exact hk) he
    have hkey : A.getD f 0 = key := by
      rcases h with ⟨_, a1, a2⟩ | ⟨_, a1, a2⟩
      · exact (mem_iff_getD_final hs hf (Or.inr a1) a2).mp hmem
      · exact (mem_iff_getD_first hs hf a1 a2).mp hmem
    rw [if_pos hkey.symm] at hr
    refine ⟨f, _, hr, hf, hkey, ?_, ?_⟩
    · intro hle j hj1 hj2 hj
      rcases h with ⟨_, _, a2⟩ | ⟨a0', _, _⟩
      · have := a2 j hj1 hj2
        omega
      · omega
    · intro hlt j hj1 hj
      rcases h with ⟨a0', _, _⟩ | ⟨_, _, a2⟩
      · omega
      · have := a2 j hj1
        omega
  · intro B k c b0 hb0 hkb
    unfold monobound_interpolated_search
    rw [hb0]
    simp only [hkb, true_or, if_true]
    by_cases hc : c + 1 + 1 ≠ 0 ∧ b0 = k
    · rw [if_pos hc]
      exact ⟨0, _, rfl, Or.inl rfl, fun _ _ => rfl⟩
    · rw [if_neg hc]
      refine ⟨-1, _, rfl, Or.inr rfl, ?_⟩
      intro hc0 hbk
      exact absurd ⟨by omega, hbk⟩ hc

set_option maxRecDepth 1000000 in
theorem interpolated_tie_break_witness :
    2 ≤ ([0, 50, 50, 60, 100] : List Int).length ∧
    ([0, 50, 50, 60, 100] : List Int).length < 2147483648 ∧
    ([0, 50, 50, 60, 100] : List Int).Sorted (· ≤ ·) ∧
    ([0, 50, 50, 60, 100] : List Int)[0]? = some 0 ∧ (0 : Int) < 50 ∧
    (50 : Int) ∈ ([0, 50, 50, 60, 100] : List Int) ∧
    3 < ([0, 50, 50, 60, 100] : List Int).length ∧
    ((∃ (r : Nat) (c : Int),
      interpolated_from [0, 50, 50, 60, 100] (([0, 50, 50, 60, 100] : List Int).length : Int)
        50 3 0 = some ((r : Int), c) ∧
      r < ([0, 50, 50, 60, 100] : List Int).length ∧
      ([0, 50, 50, 60, 100] : List Int).getD r 0 = 50 ∧
      (([0, 50, 50, 60, 100] : List Int).getD 3 0 ≤ 50 →
        ∀ j, r < j → j < ([0, 50, 50, 60, 100] : List Int).length →
          ([0, 50, 50, 60, 100] : List Int).getD j 0 ≠ 50) ∧
      (50 < ([0, 50, 50, 60, 100] : List Int).getD 3 0 →
        ∀ j, j < r → ([0, 50, 50, 60, 100] : List Int).getD j 0 ≠ 50)) ∧
    (∀ (B : List Int) (k c b0 : Int), B[0]? = some b0 → k ≤ b0 →
      ∃ r c2 : Int, monobound_interpolated_search B (B.length : Int) k c = some (r, c2) ∧
        (r = 0 ∨ r = -1) ∧ (0 ≤ c → b0 = k → r = 0)) ∧
    (∃ c, monobound_interpolated_search [0, 50, 50, 60, 60, 60, 60, 60, 60, 60, 100] 11 50 0
      = some (1, c)) ∧
    (∃ c, standard_binary_search [0, 50, 50, 60, 60, 60, 60, 60, 60, 60, 100] 11 50 0
      = some (2, c)) ∧
    (∃ c, boundless_binary_search [0, 50, 50, 60, 60, 60, 60, 60, 60, 60, 100] 11 50 0
      = some (2, c)) ∧
    (∃ c, monobound_binary_search [0, 50, 50, 60, 60, 60, 60, 60, 60, 60, 100] 11 50 0
      = some (2, c)) ∧
    (∃ c, monobound_quaternary_search [0, 50, 50, 60, 60, 60, 60, 60, 60, 60, 100] 11 50 0
      = some (2, c))) :=
  ⟨by decide, by decide, by decide, by decide, by decide, by decide, by decide,
    interpolated_tie_break [0, 50, 50, 60, 100] 50 0 0 3 (by decide) (by decide) (by decide)
      (by decide) (by decide) (by decide) (by decide)⟩

/-- C19: on every array of length `N ≥ 1` (`N < 2^31`), whatever its contents, and every
key, `monobound_binary_search` advances the comparison counter by exactly
`⌈log₂ N⌉ + 1`. -/
theorem monobound_count_exact (A : List Int) (key checks : Int) (hN : 1 ≤ A.length)
    (hlen : A.length < 2147483648) :
    ∃ r : Int, monobound_binary_search A (A.length : Int) key checks
      = some (r, checks + ((Nat.clog 2 A.length + 1 : Nat) : Int)) := by
  obtain ⟨g, hg, _⟩ := monobound_binary_search_eq A key checks hN hlen
  refine ⟨if key = A.getD g 0 then (g : Int) else -1, ?_⟩
  rw [hg]; push_cast; rw [add_assoc]

theorem monobound_count_exact_witness :
    1 ≤ ([9, 2, 7, 2, 5] : List Int).length ∧
    ([9, 2, 7, 2, 5] : List Int).length < 2147483648 ∧
    ∃ r : Int, monobound_binary_search [9, 2, 7, 2, 5]
        (([9, 2, 7, 2, 5] : List Int).length : Int) 7 0
      = some (r, 0 + ((Nat.clog 2 ([9, 2, 7, 2, 5] : List Int).length + 1 : Nat) : Int)) :=
  ⟨by decide, by decide, monobound_count_exact [9, 2, 7, 2, 5] 7 0 (by decide) (by decide)⟩

/-! ## Loop iterations -/

theorem quaternary_top_of_lt {top : Nat} (h : top < 512) : quaternary_top top = top := by
  rw [quaternary_top, dif_neg (by omega)]

theorem quaternary_top_of_ge {top : Nat} (h : top ≥ 512) :
    quaternary_top top = quaternary_top (top - top / 4 * 3) := by
  rw [quaternary_top, dif_pos h]

theorem monobound_passes_of_le {top : Nat} (h : top ≤ 1) : monobound_passes top = 0 := by
  rw [monobound_passes, dif_neg (by omega)]

theorem monobound_passes_of_gt {top : Nat} (h : top > 1) :
    monobound_passes top = 1 + monobound_passes (top - top / 2) := by
  rw [monobound_passes, dif_pos h]

/-- The loop `while (top > 1)` makes `⌈log₂ top⌉` passes. -/
theorem monobound_passes_eq_clog (top : Nat) : monobound_passes top = Nat.clog 2 top := by
  induction top using Nat.strong_induction_on with
  | _ top ih =>
    by_cases h : top > 1
    · rw [monobound_passes_of_gt h, ih (top - top / 2) (by omega), clog_two_step h]
      omega
    · rw [monobound_passes_of_le (by omega), Nat.clog_of_right_le_one (by omega)]

/-- The two loops of `monobound_quaternary_search` together make at most as many passes as
the loop of `monobound_binary_search`. -/
theorem quaternary_passes_le (top : Nat) :
    quaternary_passes top + monobound_passes (quaternary_top top) ≤ monobound_passes top := by
  induction top using Nat.strong_induction_on with
  | _ top ih =>
    by_cases h : top ≥ 512
    · rw [quaternary_passes_of_ge h, quaternary_top_of_ge h]
      have h1 := ih (top - top / 4 * 3) (by omega)
      have h2 := clog_two_quarter h
      rw [← monobound_passes_eq_clog, ← monobound_passes_eq_clog] at h2
      omega
    · rw [quaternary_passes_of_lt (by omega), quaternary_top_of_lt (by omega)]
      omega

/-- The loop `while (top >= 512)` exits with `top = quaternary_top top`, whatever the
array and the key are. -/
theorem quaternary_loop_top (A : List Int) (key : Int) (hlen : A.length < 2147483648) :
    ∀ (fuel bot top : Nat) (checks : Int), 1 ≤ top → bot + top ≤ A.length → top ≤ fuel →
      ∃ (b : Nat) (c : Int), quaternary_loop A key fuel bot top checks
          = some (b, quaternary_top top, c) ∧
        1 ≤ quaternary_top top ∧ b + quaternary_top top ≤ A.length := by
  intro fuel
  induction fuel with
  | zero => intro bot top checks h1 _ h3; omega
  | succ fuel ih =>
    intro bot top checks h1 h2 h3
    unfold quaternary_loop
    by_cases ht : top ≥ 512
    · have e1 : u32 (top / 4 * 3) = top / 4 * 3 := u32_of_lt (by omega)
      have e2 : usub top (top / 4 * 3) = top - top / 4 * 3 := usub_of_le (by omega) (by omega)
      have i1 : u32 (bot + top / 4) = bot + top / 4 := u32_of_lt (by omega)
      have i2 : u32 (bot + top / 4 + top / 4) = bot + top / 4 + top / 4 :=
        u32_of_lt (by omega)
      have i3 : u32 (bot + top / 4 + top / 4 + top / 4) = bot + top / 4 + top / 4 + top / 4 :=
        u32_of_lt (by omega)
      have r1 := getElem?_eq_getD A (show bot + top / 4 < A.length by omega)
      have r2 := getElem?_eq_getD A (show bot + top / 4 + top / 4 < A.length by omega)
      have r3 := getElem?_eq_getD A (show bot + top / 4 + top / 4 + top / 4 < A.length by omega)
      simp only [ht, if_true, e1, e2, i1, i2, i3, r1, r2, r3]
      rw [quaternary_top_of_ge ht]
      split
      · exact ih bot _ _ (by omega) (by omega) (by omega)
      · split
        · exact ih (bot + top / 4) _ _ (by omega) (by omega) (by omega)
        · split
          · exact ih (bot + top / 4 + top / 4) _ _ (by omega) (by omega) (by omega)
          · exact ih (bot + top / 4 + top / 4 + top / 4) _ _ (by omega) (by omega) (by omega)
    · simp only [ht, if_false]
      rw [quaternary_top_of_lt (by omega)]
      exact ⟨bot, checks, rfl, h1, h2⟩

/-- The pass-counting quaternary loop is the quaternary loop: on a window inside the array
both return the same `bot` and `checks` and `top = quaternary_top top`, and the count has
advanced by `quaternary_passes top`. -/
theorem quaternary_loop_passes_spec (A : List Int) (key : Int)
    (hlen : A.length < 2147483648) :
    ∀ (fuel bot top : Nat) (checks : Int) (p : Nat), 1 ≤ top → bot + top ≤ A.length →
      top ≤ fuel →
      ∃ (b : Nat) (c : Int),
        quaternary_loop_passes A key fuel bot top checks p
          = some (b, quaternary_top top, c, p + quaternary_passes top) ∧
        quaternary_loop A key fuel bot top checks = some (b, quaternary_top top, c) ∧
        1 ≤ quaternary_top top ∧ b + quaternary_top top ≤ A.length := by
  intro fuel
  induction fuel with
  | zero => intro bot top checks p h1 _ h3; omega
  | succ fuel ih =>
    intro bot top checks p h1 h2 h3
    unfold quaternary_loop_passes quaternary_loop
    by_cases ht : top ≥ 512
    · have e1 : u32 (top / 4 * 3) = top / 4 * 3 := u32_of_lt (by omega)
      have e2 : usub top (top / 4 * 3) = top - top / 4 * 3 := usub_of_le (by omega) (by omega)
      have i1 : u32 (bot + top / 4) = bot + top / 4 := u32_of_lt (by omega)
      have i2 : u32 (bot + top / 4 + top / 4) = bot + top / 4 + top / 4 :=
        u32_of_lt (by omega)
      have i3 : u32 (bot + top / 4 + top / 4 + top / 4) = bot + top / 4 + top / 4 + top / 4 :=
        u32_of_lt (by omega)
      have r1 := getElem?_eq_getD A (show bot + top / 4 < A.length by omega)
      have r2 := getElem?_eq_getD A (show bot + top / 4 + top / 4 < A.length by omega)
      have r3 := getElem?_eq_getD A (show bot + top / 4 + top / 4 + top / 4 < A.length by omega)
      have hp : p + quaternary_passes top = p + 1 + quaternary_passes (top - top / 4 * 3) := by
        rw [quaternary_passes_of_ge ht]; omega
      simp only [ht, if_true, e1, e2, i1, i2, i3, r1, r2, r3]
      rw [quaternary_top_of_ge ht, hp]
      by_cases k1 : key < A.getD (bot + top / 4) 0
      · simp only [k1, if_true]
        exact ih bot _ _ _ (by omega) (by omega) (by omega)
      · simp only [k1, if_false]
        by_cases k2 : key < A.getD (bot + top / 4 + top / 4) 0
        · simp only [k2, if_true]
          exact ih (bot + top / 4) _ _ _ (by omega) (by omega) (by omega)
        · simp only [k2, if_false]
          by_cases k3 : key < A.getD (bot + top / 4 + top / 4 + top / 4) 0
          · simp only [k3, if_true]
            exact ih (bot + top / 4 + top / 4) _ _ _ (by omega) (by omega) (by omega)
          · simp only [k3, if_false]
            exact ih (bot + top / 4 + top / 4 + top / 4) _ _ _ (by omega) (by omega)
              (by omega)
    · simp only [ht, if_false]
      rw [quaternary_top_of_lt (by omega), quaternary_passes_of_lt (by omega)]
      exact ⟨bot, checks, rfl, rfl, h1, h2⟩

/-- The pass-counting monobound loop is the monobound loop: on a window inside the array
both return the same `bot` and `checks`, and the count has advanced by
`monobound_passes top`. -/
theorem monobound_loop_passes_spec (A : List Int) (key : Int)
    (hlen : A.length < 2147483648) :
    ∀ (fuel bot top : Nat) (checks : Int) (p : Nat), 1 ≤ top → bot + top ≤ A.length →
      top ≤ fuel →
      ∃ (f : Nat) (c : Int),
        monobound_loop_passes A key fuel bot top checks p
          = some (f, c, p + monobound_passes top) ∧
        monobound_loop A key fuel bot top checks = some (f, c) := by
  intro fuel
  induction fuel with
  | zero => intro bot top checks p h1 _ h3; omega
  | succ fuel ih =>
    intro bot top checks p h1 h2 h3
    unfold monobound_loop_passes monobound_loop
    by_cases ht : top > 1
    · have hidx : bot + top / 2 < A.length := by omega
      have hp : p + monobound_passes top = p + 1 + monobound_passes (top - top / 2) := by
        rw [monobound_passes_of_gt ht]; omega
      simp only [ht, if_true]
      rw [u32_of_lt (by omega), getElem?_eq_getD A hidx, usub_of_le (by omega) (by omega), hp]
      simp only []
      by_cases hk : key ≥ A.getD (bot + top / 2) 0
      · simp only [hk, if_true]
        exact ih (bot + top / 2) _ _ _ (by omega) (by omega) (by omega)
      · simp only [hk, if_false]
        exact ih bot _ _ _ (by omega) (by omega) (by omega)
    · simp only [ht, if_false]
      rw [monobound_passes_of_le (by omega)]
      exact ⟨bot, checks, rfl, rfl⟩

theorem clog_two_le_of_le {n k : Nat} (m : Nat) (hm : 2 ^ k = m) (h : n ≤ m) :
    Nat.clog 2 n ≤ k :=
  (Nat.le_pow_iff_clog_le (by norm_num)).mp (by rw [hm]; exact h)

theorem lt_clog_two_of_lt {n k : Nat} (m : Nat) (hm : 2 ^ k = m) (h : m < n) :
    k < Nat.clog 2 n :=
  (Nat.pow_lt_iff_lt_clog (by norm_num)).mp (by rw [hm]; exact h)

/-- For every `N ≥ 512` other than 1019, 1022 and 1023, the two loops of
`monobound_quaternary_search` together make fewer passes than the loop of
`monobound_binary_search`. -/
theorem quaternary_passes_lt (N : Nat) (h : 512 ≤ N)
    (hE : N ≠ 1019 ∧ N ≠ 1022 ∧ N ≠ 1023) :
    quaternary_passes N + monobound_passes (quaternary_top N) < monobound_passes N := by
  induction N using Nat.strong_induction_on with
  | _ N ih =>
    rw [quaternary_passes_of_ge h, quaternary_top_of_ge h]
    by_cases h' : N - N / 4 * 3 < 512
    · rw [quaternary_passes_of_lt h', quaternary_top_of_lt h', monobound_passes_eq_clog,
        monobound_passes_eq_clog]
      by_cases h1 : N = 512
      · have a1 := clog_two_le_of_le (n := N - N / 4 * 3) (k := 7) 128 (by norm_num) (by omega)
        have a2 := lt_clog_two_of_lt (n := N) (k := 8) 256 (by norm_num) (by omega)
        omega
      · by_cases h2 : N ≤ 1024
        · have a1 := clog_two_le_of_le (n := N - N / 4 * 3) (k := 8) 256 (by norm_num)
            (by omega)
          have a2 := lt_clog_two_of_lt (n := N) (k := 9) 512 (by norm_num) (by omega)
          omega
        · have a1 := clog_two_le_of_le (n := N - N / 4 * 3) (k := 9) 512 (by norm_num)
            (by omega)
          have a2 := lt_clog_two_of_lt (n := N) (k := 10) 1024 (by norm_num) (by omega)
          omega
    · have h512 : 512 ≤ N - N / 4 * 3 := by omega
      by_cases hex : N - N / 4 * 3 ≠ 1019 ∧ N - N / 4 * 3 ≠ 1022 ∧ N - N / 4 * 3 ≠ 1023
      · have h1 := ih (N - N / 4 * 3) (by omega) h512 hex
        have h2 := clog_two_quarter h
        rw [← monobound_passes_eq_clog, ← monobound_passes_eq_clog] at h2
        omega
      · have h1 := quaternary_passes_le (N - N / 4 * 3)
        have a1 := clog_two_le_of_le (n := N - N / 4 * 3) (k := 10) 1024 (by norm_num)
          (by omega)
        have a2 := lt_clog_two_of_lt (n := N) (k := 11) 2048 (by norm_num) (by omega)
        have e1 := monobound_passes_eq_clog (N - N / 4 * 3)
        have e2 := monobound_passes_eq_clog N
        omega

theorem clog_two_eq_of {n k : Nat} (m : Nat) (hm : 2 ^ k = m) (h1 : m < n)
    (h2 : n ≤ 2 * m) : Nat.clog 2 n = k + 1 := by
  have a1 := lt_clog_two_of_lt (n := n) (k := k) m hm h1
  have a2 := clog_two_le_of_le (n := n) (k := k + 1) (2 * m) (by rw [pow_succ, hm]; omega) h2
  omega

/-- For `N` = 1019, 1022 and 1023 the two loops of `monobound_quaternary_search` together
make exactly as many passes as the loop of `monobound_binary_search`: 1 + 9 and 10. -/
theorem quaternary_passes_eq (N : Nat) (hE : N = 1019 ∨ N = 1022 ∨ N = 1023) :
    quaternary_passes N = 1 ∧ monobound_passes (quaternary_top N) = 9 ∧
    monobound_passes N = 10 := by
  have h512 : N ≥ 512 := by omega
  have hlt : N - N / 4 * 3 < 512 := by omega
  refine ⟨?_, ?_, ?_⟩
  · rw [quaternary_passes_of_ge h512, quaternary_passes_of_lt hlt]
  · rw [quaternary_top_of_ge h512, quaternary_top_of_lt hlt, monobound_passes_eq_clog]
    exact clog_two_eq_of (k := 8) 256 (by norm_num) (by omega) (by omega)
  · rw [monobound_passes_eq_clog]
    exact clog_two_eq_of (k := 9) 512 (by norm_num) (by omega) (by omega)

theorem quaternary_passes_pos {N : Nat} (h : 512 ≤ N) : 1 ≤ quaternary_passes N := by
  rw [quaternary_passes_of_ge h]
  omega

set_option maxRecDepth 1000000 in
/-- C20, as stated, fails: on 1023 zeros with key `-1` the loop `while (top >= 512)` of
`monobound_quaternary_search` makes 1 pass and leaves `top = 258`, its loop
`while (top > 1)` makes 9, and the loop of `monobound_binary_search` makes 10: the totals
are equal. -/
theorem quaternary_iterations_counterexample :
    quaternary_loop_passes (List.replicate 1023 0) (-1) (toU32 1023 + 1) 0 (toU32 1023) 0 0
      = some (0, 258, 1, 1) ∧
    monobound_loop_passes (List.replicate 1023 0) (-1) (258 + 1) 0 258 1 0
      = some (0, 10, 9) ∧
    monobound_loop_passes (List.replicate 1023 0) (-1) (toU32 1023 + 1) 0 (toU32 1023) 0 0
      = some (0, 10, 10) ∧
    monobound_quaternary_search (List.replicate 1023 0) 1023 (-1) 0 = some (-1, 11) ∧
    monobound_binary_search (List.replicate 1023 0) 1023 (-1) 0 = some (-1, 11) := by
  decide

/-- C20, amended: on every array of length `N ≥ 512` (`N < 2^31`) and every key, the loop
`while (top >= 512)` of `monobound_quaternary_search` makes `p1 ≥ 1` passes, its loop
`while (top > 1)` makes `p2` passes and the loop of `monobound_binary_search` makes `p3`
passes, with `p1 + p2 < p3` for every `N` other than 1019, 1022 and 1023, and
`p1 + p2 = p3` for these three.  The pass-counting loops return the `bot`, `top` and
`checks` of the loops of the two functions. -/
theorem quaternary_iterations_lt (A : List Int) (key checks : Int) (hN : 512 ≤ A.length)
    (hlen : A.length < 2147483648) :
    ∃ (b t f g : Nat) (c c2 c3 : Int) (p1 p2 p3 : Nat),
      quaternary_loop_passes A key (toU32 (A.length : Int) + 1) 0 (toU32 (A.length : Int))
        checks 0 = some (b, t, c, p1) ∧
      quaternary_loop A key (toU32 (A.length : Int) + 1) 0 (toU32 (A.length : Int)) checks
        = some (b, t, c) ∧
      monobound_loop_passes A key (t + 1) b t c 0 = some (f, c2, p2) ∧
      monobound_loop A key (t + 1) b t c = some (f, c2) ∧
      monobound_loop_passes A key (toU32 (A.length : Int) + 1) 0 (toU32 (A.length : Int))
        checks 0 = some (g, c3, p3) ∧
      monobound_loop A key (toU32 (A.length : Int) + 1) 0 (toU32 (A.length : Int)) checks
        = some (g, c3) ∧
      1 ≤ p1 ∧
      (A.length ≠ 1019 ∧ A.length ≠ 1022 ∧ A.length ≠ 1023 → p1 + p2 < p3) ∧
      (A.length = 1019 ∨ A.length = 1022 ∨ A.length = 1023 → p1 + p2 = p3) := by
  have hU : toU32 (A.length : Int) = A.length := toU32_natCast (by omega)
  obtain ⟨b, c, hq1, hq2, q1, q2⟩ :=
    quaternary_loop_passes_spec A key hlen (A.length + 1) 0 A.length checks 0 (by omega)
      (by omega) (by omega)
  obtain ⟨f, c2, hf1, hf2⟩ :=
    monobound_loop_passes_spec A key hlen (quaternary_top A.length + 1) b
      (quaternary_top A.length) c 0 q1 q2 (by omega)
  obtain ⟨g, c3, hg1, hg2⟩ :=
    monobound_loop_passes_spec A key hlen (A.length + 1) 0 A.length checks 0 (by omega)
      (by omega) (by omega)
  refine ⟨b, quaternary_top A.length, f, g, c, c2, c3, 0 + quaternary_passes A.length,
    0 + monobound_passes (quaternary_top A.length), 0 + monobound_passes A.length,
    by rw [hU]; exact hq1, by rw [hU]; exact hq2, hf1, hf2, by rw [hU]; exact hg1,
    by rw [hU]; exact hg2, ?_, ?_, ?_⟩
  · have := quaternary_passes_pos hN
    omega
  · intro hE
    have := quaternary_passes_lt A.length hN hE
    omega
  · intro hE
    obtain ⟨e1, e2, e3⟩ := quaternary_passes_eq A.length hE
    omega

theorem quaternary_iterations_lt_witness :
    512 ≤ (List.replicate 600 (0 : Int)).length ∧
    (List.replicate 600 (0 : Int)).length < 2147483648 ∧
    ∃ (b t f g : Nat) (c c2 c3 : Int) (p1 p2 p3 : Nat),
      quaternary_loop_passes (List.replicate 600 0) 0
        (toU32 ((List.replicate 600 (0 : Int)).length : Int) + 1) 0
        (toU32 ((List.replicate 600 (0 : Int)).length : Int)) 0 0 = some (b, t, c, p1) ∧
      quaternary_loop (List.replicate 600 0) 0
        (toU32 ((List.replicate 600 (0 : Int)).length : Int) + 1) 0
        (toU32 ((List.replicate 600 (0 : Int)).length : Int)) 0 = some (b, t, c) ∧
      monobound_loop_passes (List.replicate 600 0) 0 (t + 1) b t c 0 = some (f, c2, p2) ∧
      monobound_loop (List.replicate 600 0) 0 (t + 1) b t c = some (f, c2) ∧
      monobound_loop_passes (List.replicate 600 0) 0
        (toU32 ((List.replicate 600 (0 : Int)).length : Int) + 1) 0
        (toU32 ((List.replicate 600 (0 : Int)).length : Int)) 0 0 = some (g, c3, p3) ∧
      monobound_loop (List.replicate 600 0) 0
        (toU32 ((List.replicate 600 (0 : Int)).length : Int) + 1) 0
        (toU32 ((List.replicate 600 (0 : Int)).length : Int)) 0 = some (g, c3) ∧
      1 ≤ p1 ∧
      ((List.replicate 600 (0 : Int)).length ≠ 1019 ∧
        (List.replicate 600 (0 : Int)).length ≠ 1022 ∧
        (List.replicate 600 (0 : Int)).length ≠ 1023 → p1 + p2 < p3) ∧
      ((List.replicate 600 (0 : Int)).length = 1019 ∨
        (List.replicate 600 (0 : Int)).length = 1022 ∨
        (List.replicate 600 (0 : Int)).length = 1023 → p1 + p2 = p3) :=
  ⟨by simp only [List.length_replicate]; norm_num,
    by simp only [List.length_replicate]; norm_num,
    quaternary_iterations_lt (List.replicate 600 0) 0 0
      (by simp only [List.length_replicate]; norm_num)
      (by simp only [List.length_replicate]; norm_num)⟩

/-! ## The counter does not steer the result -/

theorem map_fst_of_shift {α : Type} (x : Option (α × Int)) (d : Int) :
    (x.map (fun p => (p.1, p.2 + d))).map Prod.fst = x.map Prod.fst := by
  rcases x with _ | ⟨r, c⟩ <;> rfl

/-- C12: for every array and every key, the value returned by each of the four bisection
variants is the same for every value of the counter on entry, and the value returned by
`monobound_interpolated_search`, guard path included, is the same for all values `≥ 0` of
the counter on entry (the counter is zero-initialised, reset to 0 and only incremented).
A call that returns no result does so for every such value. -/
theorem counter_independence (A : List Int) (key c1 c2 : Int) (h1 : 0 ≤ c1) (h2 : 0 ≤ c2) :
    (∀ d1 d2 : Int, (standard_binary_search A (A.length : Int) key d1).map Prod.fst
      = (standard_binary_search A (A.length : Int) key d2).map Prod.fst) ∧
    (∀ d1 d2 : Int, (boundless_binary_search A (A.length : Int) key d1).map Prod.fst
      = (boundless_binary_search A (A.length : Int) key d2).map Prod.fst) ∧
    (∀ d1 d2 : Int, (monobound_binary_search A (A.length : Int) key d1).map Prod.fst
      = (monobound_binary_search A (A.length : Int) key d2).map Prod.fst) ∧
    (∀ d1 d2 : Int, (monobound_quaternary_search A (A.length : Int) key d1).map Prod.fst
      = (monobound_quaternary_search A (A.length : Int) key d2).map Prod.fst) ∧
    (monobound_interpolated_search A (A.length : Int) key c1).map Prod.fst
      = (monobound_interpolated_search A (A.length : Int) key c2).map Prod.fst := by
  refine ⟨?_, ?_, ?_, ?_, ?_⟩
  · intro d1 d2
    have e1 := standard_binary_search_shift A (A.length : Int) key 0 d1
    have e2 := standard_binary_search_shift A (A.length : Int) key 0 d2
    rw [zero_add] at e1 e2
    rw [e1, e2, map_fst_of_shift, map_fst_of_shift]
  · intro d1 d2
    have e1 := boundless_binary_search_shift A (A.length : Int) key 0 d1
    have e2 := boundless_binary_search_shift A (A.length : Int) key 0 d2
    rw [zero_add] at e1 e2
    rw [e1, e2, map_fst_of_shift, map_fst_of_shift]
  · intro d1 d2
    have e1 := monobound_binary_search_shift A (A.length : Int) key 0 d1
    have e2 := monobound_binary_search_shift A (A.length : Int) key 0 d2
    rw [zero_add] at e1 e2
    rw [e1, e2, map_fst_of_shift, map_fst_of_shift]
  · intro d1 d2
    have e1 := monobound_quaternary_search_shift A (A.length : Int) key 0 d1
    have e2 := monobound_quaternary_search_shift A (A.length : Int) key 0 d2
    rw [zero_add] at e1 e2
    rw [e1, e2, map_fst_of_shift, map_fst_of_shift]
  · have e1 := monobound_interpolated_search_shift A (A.length : Int) key 0 c1 (by decide)
      (by omega)
    have e2 := monobound_interpolated_search_shift A (A.length : Int) key 0 c2 (by decide)
      (by omega)
    rw [zero_add] at e1 e2
    rw [e1, e2, map_fst_of_shift, map_fst_of_shift]

theorem counter_independence_witness :
    (0 : Int) ≤ 0 ∧ (0 : Int) ≤ 7 ∧
    ((∀ d1 d2 : Int,
      (standard_binary_search [5] (([5] : List Int).length : Int) 5 d1).map Prod.fst
        = (standard_binary_search [5] (([5] : List Int).length : Int) 5 d2).map Prod.fst) ∧
    (∀ d1 d2 : Int,
      (boundless_binary_search [5] (([5] : List Int).length : Int) 5 d1).map Prod.fst
        = (boundless_binary_search [5] (([5] : List Int).length : Int) 5 d2).map Prod.fst) ∧
    (∀ d1 d2 : Int,
      (monobound_binary_search [5] (([5] : List Int).length : Int) 5 d1).map Prod.fst
        = (monobound_binary_search [5] (([5] : List Int).length : Int) 5 d2).map Prod.fst) ∧
    (∀ d1 d2 : Int,
      (monobound_quaternary_search [5] (([5] : List Int).length : Int) 5 d1).map Prod.fst
        = (monobound_quaternary_search [5] (([5] : List Int).length : Int) 5 d2).map
            Prod.fst) ∧
    (monobound_interpolated_search [5] (([5] : List Int).length : Int) 5 0).map Prod.fst
      = (monobound_interpolated_search [5] (([5] : List Int).length : Int) 5 7).map
          Prod.fst) :=
  ⟨by decide, by decide, counter_independence [5] 5 0 7 (by decide) (by decide)⟩

end BinarySearch
